import Mathlib

/-!
# Worker pool (`assignment_6.go`): model and verification

The program fills a buffered channel with tasks `1..20`, closes it, spawns four
worker goroutines that drain the channel, and joins them with a `WaitGroup`
before printing the collected results.

The sequential prefix of `main` (channel creation, the fill loop, `close`) is
embedded as functions.  From the state right after `close(taskChan)` the program
is concurrent; it is embedded as a scheduler-driven step function
`step : State → Action → Option State`, one shared-memory operation per step,
where the `Action` is the choice made by the scheduler (which goroutine moves)
together with the values drawn from `math/rand`.  "Every interleaving" is
"every list of actions".

The literals of `main` (20 tasks, 4 workers, capacity 20) are the fields of
`refConfig`; the body of `process` is a parameter of `step`, instantiated with
`Task.process`.  The state carries history variables (logs of receives, of
returns of `process`, of writes to `results` and of completion signals) that
the program never reads; the properties are stated over them.
-/

namespace WorkerPool

/-! ## Data model -/

/-- A unit of work, `type Task struct { ID int }`.  The ids the program creates are the
values `1..20` of a loop counter, so a natural number holds them. -/
structure Task where
  ID : Nat
deriving DecidableEq

/-- Compiled-in constants of `main`: the task count (upper bound of the fill
loop), `numWorkers`, and the capacity passed to `make(chan Task, _)`. -/
structure Config where
  nTasks : Nat
  numWorkers : Nat
  cap : Nat
deriving DecidableEq

/-- The constants as written in `main`: 20 tasks, 4 workers, capacity 20. -/
def refConfig : Config := { nTasks := 20, numWorkers := 4, cap := 20 }

/-- What one call of `process` does: the line it prints, the time it sleeps
(a `time.Duration`, in nanoseconds) and the `error` it returns (`none` is `nil`). -/
structure ProcOut where
  log : String
  sleep : Int
  err : Option String
deriving DecidableEq

/-- Two's-complement wrap-around of `int64` arithmetic. -/
def wrap64 (x : Int) : Int := (x + 2 ^ 63) % 2 ^ 64 - 2 ^ 63

/-- The constant `time.Millisecond`, a `time.Duration` counted in nanoseconds. -/
def Millisecond : Int := 1000000

/-- The text of `fmt.Sprintf("%d", n)` for a non-negative `n`. -/
def decimal (n : Nat) : String := Nat.repr n

/-- The function `getGoroutineName`: `fmt.Sprintf("Worker-%d", rand.Intn(1000))`; `r` is the
value returned by `rand.Intn(1000)`. -/
def getGoroutineName (r : Nat) : String := "Worker-" ++ decimal r

/-- The duration handed to `time.Sleep`:
`time.Millisecond * time.Duration(300+rand.Intn(400))`, in `int64`. -/
def sleepDuration (r : Nat) : Int := wrap64 (Millisecond * wrap64 (300 + (r : Int)))

/-- The method `process` of `Task`: `rName` and `rDelay` are the values returned by
`rand.Intn(1000)` and `rand.Intn(400)`. -/
def Task.process (t : Task) (rName rDelay : Nat) : ProcOut :=
  { log := getGoroutineName rName ++ " is processing Task " ++ decimal t.ID
    sleep := sleepDuration rDelay
    err := none }

/-- The name computed in `worker`, `name := fmt.Sprintf("Worker-%d", id)`. -/
def workerName (id : Nat) : String := "Worker-" ++ decimal id

/-- The record appended by `worker`:
`fmt.Sprintf("%s processed Task %d", name, task.ID)`. -/
def resultLine (id taskID : Nat) : String :=
  workerName id ++ " processed Task " ++ decimal taskID

/-- The line printed by `worker` for a failed task. -/
def errorLine (id : Nat) (e : String) : String :=
  workerName id ++ " encountered an error: " ++ e

/-- The line printed by `worker` after its loop. -/
def finishedLine (id : Nat) : String := workerName id ++ " finished processing."

/-- The header printed by `main` after `wg.Wait()`. -/
def header : String := "\nFinal Results:"

/-! ## Sequential prefix of `main` -/

/-- A buffered channel: its capacity, buffered elements (oldest first) and
whether it has been closed. -/
structure Chan where
  cap : Nat
  buf : List Task
  closed : Bool
deriving DecidableEq

/-- The channel created by `make(chan Task, cap)`. -/
def Chan.make (cap : Nat) : Chan := { cap := cap, buf := [], closed := false }

/-- The send `ch <- t` with no receiver around: `none` when the send cannot complete
(buffer full: the sender blocks forever; channel closed: it panics). -/
def Chan.send (ch : Chan) (t : Task) : Option Chan :=
  if ch.closed then none
  else if ch.buf.length < ch.cap then some { ch with buf := ch.buf ++ [t] }
  else none

/-- The channel after `close(ch)`. -/
def Chan.close (ch : Chan) : Chan := { ch with closed := true }

/-- The loop `for i := i; i <= n; i++ { ch <- Task{ID: i} }`, with `fuel`
bounding the number of iterations. -/
def fillLoop (n : Nat) : Nat → Nat → Chan → Option Chan
  | 0, _, ch => some ch
  | fuel + 1, i, ch =>
    if i ≤ n then
      match ch.send { ID := i } with
      | some ch1 => fillLoop n fuel (i + 1) ch1
      | none => none
    else some ch

/-- The channel as `main` leaves it after `close(taskChan)`. -/
def filledChan (cfg : Config) : Option Chan :=
  (fillLoop cfg.nTasks cfg.nTasks 1 (Chan.make cfg.cap)).map Chan.close

/-! ## Concurrent part -/

/-- Control points of a `worker` goroutine. -/
inductive WPc where
  /-- At `for task := range tasks`, about to receive. -/
  | recv
  /-- About to call `task.process()`. -/
  | process (t : Task)
  /-- `err != nil`: about to print the error and `continue`. -/
  | failed (t : Task) (e : String)
  /-- About to call `mu.Lock()`. -/
  | lock (t : Task)
  /-- Holding the lock, about to read `*results`. -/
  | load (t : Task)
  /-- Holding the lock, about to write `append(old, line)` to `*results`. -/
  | store (t : Task) (old : List String)
  /-- About to call `mu.Unlock()`. -/
  | unlock
  /-- Loop left, about to print the finished line. -/
  | exit
  /-- About to run the deferred `wg.Done()`. -/
  | done
  /-- Returned. -/
  | finished
deriving DecidableEq

/-- A spawned `worker` goroutine: its `id` argument and control point. -/
structure Worker where
  id : Nat
  pc : WPc
deriving DecidableEq

/-- Control points of `main` after `close(taskChan)`. -/
inductive MPc where
  /-- Head of the spawn loop with counter `i`: `wg.Add(1)` if `i <= numWorkers`. -/
  | add (i : Nat)
  /-- About to run `go worker(i, ...)`. -/
  | go (i : Nat)
  /-- At `wg.Wait()`. -/
  | wait
  /-- About to print the header. -/
  | header
  /-- About to evaluate the range expression `results`. -/
  | range
  /-- Printing loop with the entries still to print. -/
  | print (rest : List String)
  /-- Returned from `main`. -/
  | done
deriving DecidableEq

/-- Program state after `close(taskChan)`.  The fields `recvLog`, `procLog`,
`storeLog`, `doneLog` and the identity kept in `mu` are history variables: they
record what happened and are never read by the program. -/
structure State where
  main : MPc
  /-- Buffer of `taskChan`, oldest first. -/
  taskChan : List Task
  closed : Bool
  results : List String
  /-- The mutex `mu`: `none` is unlocked, `some id` is locked (by worker `id`). -/
  mu : Option Nat
  /-- Counter of the `WaitGroup`. -/
  wg : Int
  /-- Goroutines spawned so far, in spawn order. -/
  workers : List Worker
  /-- Standard output, one entry per print call (without the final newline). -/
  out : List String
  /-- A `sync` primitive was misused (negative counter, unlock of an unlocked mutex). -/
  panicked : Bool
  /-- Receives so far: (worker id, task id). -/
  recvLog : List (Nat × Nat)
  /-- Returns of `process` so far: (worker id, task id, `err == nil`). -/
  procLog : List (Nat × Nat × Bool)
  /-- Writes to `*results` so far: (worker id, task id). -/
  storeLog : List (Nat × Nat)
  /-- Calls of `wg.Done()` so far, by worker id. -/
  doneLog : List Nat
deriving DecidableEq

/-- A scheduling decision: `main` moves, or the `j`-th spawned goroutine
(counted from 0) moves; `rName` and `rDelay` are what `rand.Intn(1000)` and
`rand.Intn(400)` return if the move is a call of `process`. -/
inductive Action where
  | main
  | worker (j : Nat) (rName rDelay : Nat)
deriving DecidableEq

/-- The state of `main` right after `close(taskChan)`, for a channel `ch`. -/
def stateAfterClose (ch : Chan) : State :=
  { main := .add 1, taskChan := ch.buf, closed := ch.closed, results := [], mu := none,
    wg := 0, workers := [], out := [], panicked := false,
    recvLog := [], procLog := [], storeLog := [], doneLog := [] }

/-- The state of `main` right after `close(taskChan)`; `none` if the fill loop
never gets there. -/
def initState (cfg : Config) : Option State := (filledChan cfg).map stateAfterClose

/-- One step of `main`. -/
def stepMain (cfg : Config) (s : State) : Option State :=
  match s.main with
  | .add i =>
    if i ≤ cfg.numWorkers then some { s with wg := s.wg + 1, main := .go i }
    else some { s with main := .wait }
  | .go i =>
    some { s with workers := s.workers ++ [{ id := i, pc := .recv }], main := .add (i + 1) }
  | .wait => if s.wg = 0 then some { s with main := .header } else none
  | .header => some { s with out := s.out ++ [header], main := .range }
  | .range => some { s with main := .print s.results }
  | .print [] => some { s with main := .done }
  | .print (r :: rest) => some { s with out := s.out ++ [r], main := .print rest }
  | .done => none

/-- Replace the control point of the `j`-th goroutine. -/
def setPc (ws : List Worker) (j : Nat) (w : Worker) (pc : WPc) : List Worker :=
  ws.set j { w with pc := pc }

/-- One step of the `j`-th goroutine, which is `w`.  `proc` is the body of
`process`. -/
def stepWorker (proc : Task → Nat → Nat → ProcOut) (s : State) (j : Nat) (w : Worker)
    (rName rDelay : Nat) : Option State :=
  match w.pc with
  | .recv =>
    match s.taskChan with
    | t :: q =>
      some { s with taskChan := q, recvLog := s.recvLog ++ [(w.id, t.ID)],
                    workers := setPc s.workers j w (.process t) }
    | [] => if s.closed then some { s with workers := setPc s.workers j w .exit } else none
  | .process t =>
    if rName < 1000 ∧ rDelay < 400 then
      let o := proc t rName rDelay
      some { s with out := s.out ++ [o.log],
                    procLog := s.procLog ++ [(w.id, t.ID, o.err.isNone)],
                    workers := setPc s.workers j w
                      (match o.err with
                       | none => .lock t
                       | some e => .failed t e) }
    else none
  | .failed _ e =>
    some { s with out := s.out ++ [errorLine w.id e], workers := setPc s.workers j w .recv }
  | .lock t =>
    match s.mu with
    | none => some { s with mu := some w.id, workers := setPc s.workers j w (.load t) }
    | some _ => none
  | .load t => some { s with workers := setPc s.workers j w (.store t s.results) }
  | .store t old =>
    some { s with results := old ++ [resultLine w.id t.ID],
                  storeLog := s.storeLog ++ [(w.id, t.ID)],
                  workers := setPc s.workers j w .unlock }
  | .unlock =>
    match s.mu with
    | none => some { s with panicked := true }
    | some _ => some { s with mu := none, workers := setPc s.workers j w .recv }
  | .exit =>
    some { s with out := s.out ++ [finishedLine w.id], workers := setPc s.workers j w .done }
  | .done =>
    if s.wg - 1 < 0 then some { s with panicked := true }
    else some { s with wg := s.wg - 1, doneLog := s.doneLog ++ [w.id],
                       workers := setPc s.workers j w .finished }
  | .finished => none

/-- One step of the program under scheduling decision `a`; `none` when the
chosen goroutine cannot move (blocked, returned, not spawned, or the program
has crashed). -/
def step (cfg : Config) (proc : Task → Nat → Nat → ProcOut) (s : State) (a : Action) :
    Option State :=
  if s.panicked then none
  else
    match a with
    | .main => stepMain cfg s
    | .worker j rName rDelay =>
      match s.workers[j]? with
      | some w => stepWorker proc s j w rName rDelay
      | none => none

/-- Run a schedule from `s`; `none` if some decision in it is not enabled. -/
def run (cfg : Config) (proc : Task → Nat → Nat → ProcOut) :
    State → List Action → Option State
  | s, [] => some s
  | s, a :: as =>
    match step cfg proc s a with
    | some s1 => run cfg proc s1 as
    | none => none

/-- State `s` is reached from the state after `close(taskChan)` by schedule `as`. -/
def ReachedBy (cfg : Config) (proc : Task → Nat → Nat → ProcOut) (as : List Action)
    (s : State) : Prop :=
  ∃ s0, initState cfg = some s0 ∧ run cfg proc s0 as = some s

/-- State `s` is reachable from the state after `close(taskChan)`. -/
def Reachable (cfg : Config) (proc : Task → Nat → Nat → ProcOut) (s : State) : Prop :=
  ∃ as, ReachedBy cfg proc as s

/-! ## Definitions used in the proofs -/

/-- The moves of `step`, one constructor per program point and outcome. -/
inductive Step (cfg : Config) (proc : Task → Nat → Nat → ProcOut) (s : State) : State → Prop
  | add (i : Nat) (hm : s.main = .add i) (hi : i ≤ cfg.numWorkers) :
      Step cfg proc s { s with wg := s.wg + 1, main := .go i }
  | addExit (i : Nat) (hm : s.main = .add i) (hi : ¬ i ≤ cfg.numWorkers) :
      Step cfg proc s { s with main := .wait }
  | go (i : Nat) (hm : s.main = .go i) :
      Step cfg proc s
        { s with workers := s.workers ++ [{ id := i, pc := .recv }], main := .add (i + 1) }
  | wait (hm : s.main = .wait) (hwg : s.wg = 0) :
      Step cfg proc s { s with main := .header }
  | header (hm : s.main = .header) :
      Step cfg proc s { s with out := s.out ++ [header], main := .range }
  | range (hm : s.main = .range) :
      Step cfg proc s { s with main := .print s.results }
  | printNil (hm : s.main = .print []) :
      Step cfg proc s { s with main := .done }
  | printCons (r : String) (rest : List String) (hm : s.main = .print (r :: rest)) :
      Step cfg proc s { s with out := s.out ++ [r], main := .print rest }
  | recv (j : Nat) (w : Worker) (hw : s.workers[j]? = some w) (hpc : w.pc = .recv)
      (t : Task) (q : List Task) (hq : s.taskChan = t :: q) :
      Step cfg proc s
        { s with taskChan := q, recvLog := s.recvLog ++ [(w.id, t.ID)],
                 workers := setPc s.workers j w (.process t) }
  | recvEnd (j : Nat) (w : Worker) (hw : s.workers[j]? = some w) (hpc : w.pc = .recv)
      (hq : s.taskChan = []) (hc : s.closed = true) :
      Step cfg proc s { s with workers := setPc s.workers j w .exit }
  | procOk (j : Nat) (w : Worker) (hw : s.workers[j]? = some w) (t : Task)
      (hpc : w.pc = .process t) (rName rDelay : Nat) (hr : rName < 1000 ∧ rDelay < 400)
      (he : (proc t rName rDelay).err = none) :
      Step cfg proc s
        { s with out := s.out ++ [(proc t rName rDelay).log],
                 procLog := s.procLog ++ [(w.id, t.ID, true)],
                 workers := setPc s.workers j w (.lock t) }
  | procErr (j : Nat) (w : Worker) (hw : s.workers[j]? = some w) (t : Task)
      (hpc : w.pc = .process t) (rName rDelay : Nat) (hr : rName < 1000 ∧ rDelay < 400)
      (e : String) (he : (proc t rName rDelay).err = some e) :
      Step cfg proc s
        { s with out := s.out ++ [(proc t rName rDelay).log],
                 procLog := s.procLog ++ [(w.id, t.ID, false)],
                 workers := setPc s.workers j w (.failed t e) }
  | failed (j : Nat) (w : Worker) (hw : s.workers[j]? = some w) (t : Task) (e : String)
      (hpc : w.pc = .failed t e) :
      Step cfg proc s
        { s with out := s.out ++ [errorLine w.id e], workers := setPc s.workers j w .recv }
  | lock (j : Nat) (w : Worker) (hw : s.workers[j]? = some w) (t : Task)
      (hpc : w.pc = .lock t) (hmu : s.mu = none) :
      Step cfg proc s { s with mu := some w.id, workers := setPc s.workers j w (.load t) }
  | load (j : Nat) (w : Worker) (hw : s.workers[j]? = some w) (t : Task)
      (hpc : w.pc = .load t) :
      Step cfg proc s { s with workers := setPc s.workers j w (.store t s.results) }
  | store (j : Nat) (w : Worker) (hw : s.workers[j]? = some w) (t : Task) (old : List String)
      (hpc : w.pc = .store t old) :
      Step cfg proc s
        { s with results := old ++ [resultLine w.id t.ID],
                 storeLog := s.storeLog ++ [(w.id, t.ID)],
                 workers := setPc s.workers j w .unlock }
  | unlockPanic (j : Nat) (w : Worker) (hw : s.workers[j]? = some w) (hpc : w.pc = .unlock)
      (hmu : s.mu = none) :
      Step cfg proc s { s with panicked := true }
  | unlock (j : Nat) (w : Worker) (hw : s.workers[j]? = some w) (hpc : w.pc = .unlock)
      (k : Nat) (hmu : s.mu = some k) :
      Step cfg proc s { s with mu := none, workers := setPc s.workers j w .recv }
  | exit (j : Nat) (w : Worker) (hw : s.workers[j]? = some w) (hpc : w.pc = .exit) :
      Step cfg proc s
        { s with out := s.out ++ [finishedLine w.id], workers := setPc s.workers j w .done }
  | donePanic (j : Nat) (w : Worker) (hw : s.workers[j]? = some w) (hpc : w.pc = .done)
      (hwg : s.wg - 1 < 0) :
      Step cfg proc s { s with panicked := true }
  | done (j : Nat) (w : Worker) (hw : s.workers[j]? = some w) (hpc : w.pc = .done)
      (hwg : ¬ s.wg - 1 < 0) :
      Step cfg proc s
        { s with wg := s.wg - 1, doneLog := s.doneLog ++ [w.id],
                 workers := setPc s.workers j w .finished }

/-- The tasks `1..n` in order. -/
def tasksUpTo (n : Nat) : List Task := (List.range' 1 n).map Task.mk

/-- The state after `close(taskChan)` when the fill loop completes. -/
def startState (cfg : Config) : State :=
  stateAfterClose { cap := cfg.cap, buf := tasksUpTo cfg.nTasks, closed := true }

/-- Between `mu.Lock()` and `mu.Unlock()`. -/
def WPc.inCS : WPc → Bool
  | .load _ => true
  | .store _ _ => true
  | .unlock => true
  | _ => false

/-- Indicator of a goroutine that has not yet run `wg.Done()`. -/
def WPc.live : WPc → Nat
  | .finished => 0
  | _ => 1

/-- Number of spawned workers that have not yet finished. -/
def liveCount (ws : List Worker) : Nat := (ws.map (fun w => w.pc.live)).sum

/-- Indicator of `main` standing between `wg.Add(1)` and the `go` statement. -/
def MPc.gap : MPc → Nat
  | .go _ => 1
  | _ => 0

/-- Whether `main` has returned from `wg.Wait()`. -/
def MPc.pastWait : MPc → Bool
  | .header => true
  | .range => true
  | .print _ => true
  | .done => true
  | _ => false

/-- Relation between the spawn loop counter and the number of goroutines spawned. -/
def spawnOk (numWorkers : Nat) (m : MPc) (spawned : Nat) : Prop :=
  match m with
  | .add i => 1 ≤ i ∧ i ≤ numWorkers + 1 ∧ spawned + 1 = i
  | .go i => 1 ≤ i ∧ i ≤ numWorkers ∧ spawned + 1 = i
  | _ => spawned = numWorkers

/-- Structural invariant of the reachable states. -/
structure InvA (cfg : Config) (s : State) : Prop where
  noPanic : s.panicked = false
  closed : s.closed = true
  ids : ∀ (i : Nat) (v : Worker), s.workers[i]? = some v → v.id = i + 1
  spawn : spawnOk cfg.numWorkers s.main s.workers.length
  mutex : ∀ (i : Nat) (v : Worker), s.workers[i]? = some v →
    (v.pc.inCS = true ↔ s.mu = some v.id)
  holder : ∀ k, s.mu = some k → 1 ≤ k ∧ k ≤ s.workers.length
  wg : s.wg = (liveCount s.workers : Int) + (s.main.gap : Int)
  joined : s.main.pastWait = true → ∀ v ∈ s.workers, v.pc = .finished

/-- The worker has left its `for ... range` loop. -/
def WPc.leftLoop : WPc → Bool
  | .exit => true
  | .done => true
  | .finished => true
  | _ => false

/-- Receives so far followed by the queue content are the tasks `1..N` in order,
and once a worker has left its loop the queue is empty. -/
structure InvQ (cfg : Config) (s : State) : Prop where
  fifo : s.recvLog.map Prod.snd ++ s.taskChan.map Task.ID = List.range' 1 cfg.nTasks
  drained : ∀ v ∈ s.workers, v.pc.leftLoop = true → s.taskChan = []

/-- The record appended for a log entry (worker id, task id). -/
def recordOf (p : Nat × Nat) : String := resultLine p.1 p.2

/-- The value read from `*results` under the lock is still current when it is
written back, and `results` holds one record per write, in write order. -/
structure InvR (s : State) : Prop where
  snap : ∀ (i : Nat) (v : Worker) (t : Task) (old : List String),
    s.workers[i]? = some v → v.pc = .store t old → old = s.results
  res : s.results = s.storeLog.map recordOf

/-- The entries of a log that belong to worker `k`, in log order. -/
def byWorker {α : Type} (k : Nat) (l : List (Nat × α)) : List α :=
  (l.filter (fun p => decide (p.1 = k))).map Prod.snd

/-- The task ids of the successful entries of a `process` history. -/
def okTasks (l : List (Nat × Bool)) : List Nat := (l.filter (fun p => p.2)).map Prod.fst

/-- How the histories of one worker relate at each control point: `R` the tasks it
received, `P` the tasks it processed with their outcome, `S` the tasks it recorded. -/
def LocalLog : WPc → List Nat → List (Nat × Bool) → List Nat → Prop
  | .process t, R, P, S => R = P.map Prod.fst ++ [t.ID] ∧ S = okTasks P
  | .lock t, R, P, S => P.map Prod.fst = R ∧ okTasks P = S ++ [t.ID]
  | .load t, R, P, S => P.map Prod.fst = R ∧ okTasks P = S ++ [t.ID]
  | .store t _, R, P, S => P.map Prod.fst = R ∧ okTasks P = S ++ [t.ID]
  | _, R, P, S => P.map Prod.fst = R ∧ S = okTasks P

/-- Histories of the reachable states. -/
structure InvL (proc : Task → Nat → Nat → ProcOut) (s : State) : Prop where
  recvIds : ∀ p ∈ s.recvLog, 1 ≤ p.1 ∧ p.1 ≤ s.workers.length
  procIds : ∀ p ∈ s.procLog, 1 ≤ p.1 ∧ p.1 ≤ s.workers.length
  storeIds : ∀ p ∈ s.storeLog, 1 ≤ p.1 ∧ p.1 ≤ s.workers.length
  doneIds : ∀ k ∈ s.doneLog, 1 ≤ k ∧ k ≤ s.workers.length
  loc : ∀ (i : Nat) (v : Worker), s.workers[i]? = some v →
    LocalLog v.pc (byWorker v.id s.recvLog) (byWorker v.id s.procLog) (byWorker v.id s.storeLog)
  doneOnce : ∀ (i : Nat) (v : Worker), s.workers[i]? = some v →
    s.doneLog.count v.id = if v.pc = .finished then 1 else 0
  src : ∀ p ∈ s.procLog, ∃ r1 r2, r1 < 1000 ∧ r2 < 400 ∧
    p.2.2 = (proc { ID := p.2.1 } r1 r2).err.isNone

/-- The (worker, task) pairs of the `process` log. -/
def procPairs (l : List (Nat × Nat × Bool)) : List (Nat × Nat) := l.map (fun p => (p.1, p.2.1))

/-- The (worker, task) pairs of the successful entries of the `process` log. -/
def okPairs (l : List (Nat × Nat × Bool)) : List (Nat × Nat) :=
  (l.filter (fun p => p.2.2)).map (fun p => (p.1, p.2.1))

/-- All `numWorkers` goroutines have been spawned and have returned. -/
def AllDone (cfg : Config) (s : State) : Prop :=
  s.workers.length = cfg.numWorkers ∧ ∀ v ∈ s.workers, v.pc = .finished

instance (cfg : Config) (s : State) : Decidable (AllDone cfg s) := by
  unfold AllDone; infer_instance

/-- Number of steps a worker at this control point can still take without
receiving another task. -/
def WPc.rank : WPc → Nat
  | .finished => 0
  | .done => 1
  | .exit => 2
  | .recv => 3
  | .unlock => 4
  | .failed _ _ => 4
  | .store _ _ => 5
  | .load _ => 6
  | .lock _ => 7
  | .process _ => 8

/-- Bound on the steps `main` can still take, counting the first three steps of
every goroutine it will still spawn. -/
def MPc.rank (cfg : Config) : MPc → Nat
  | .done => 0
  | .print rest => rest.length + 1
  | .range => cfg.nTasks + 2
  | .header => cfg.nTasks + 3
  | .wait => cfg.nTasks + 4
  | .add i => 5 * (cfg.numWorkers + 1 - i) + cfg.nTasks + 5
  | .go i => 5 * (cfg.numWorkers - i) + cfg.nTasks + 9

/-- Sum of the ranks of the spawned goroutines. -/
def rankSum (ws : List Worker) : Nat := (ws.map (fun w => w.pc.rank)).sum

/-- Termination measure: it decreases at every step of a reachable state. -/
def stepsLeft (cfg : Config) (s : State) : Nat :=
  (if s.panicked then 0 else 1) + s.main.rank cfg + rankSum s.workers + 9 * s.taskChan.length

/-- Value of a string of decimal digits. -/
def digitsVal (acc : Nat) (l : List Char) : Nat :=
  l.foldl (fun a c => 10 * a + (c.toNat - 48)) acc

/-- A line printed by some worker: by `process`, for a failed task, or after the loop. -/
def WorkerLine (proc : Task → Nat → Nat → ProcOut) (l : String) : Prop :=
  (∃ t r1 r2, r1 < 1000 ∧ r2 < 400 ∧ l = (proc t r1 r2).log) ∨
  (∃ k e, l = errorLine k e) ∨ (∃ k, l = finishedLine k)

/-- Shape of the output at each control point of `main`: worker lines, then the
header, then the results printed so far. -/
def OutOk (proc : Task → Nat → Nat → ProcOut) (s : State) : Prop :=
  ∃ pre, (∀ l ∈ pre, WorkerLine proc l) ∧
    match s.main with
    | .range => s.out = pre ++ [header]
    | .print rest => ∃ printed, s.out = pre ++ header :: printed ∧ printed ++ rest = s.results
    | .done => s.out = pre ++ header :: s.results
    | _ => s.out = pre

/-- A schedule written as goroutine numbers: `0` is `main`, `c + 1` is the `c`-th
spawned worker, drawing `111 * (c + 1)` and `37 * (c + 1)` from `math/rand`. -/
def schedule (codes : List Nat) : List Action :=
  codes.map (fun c => if c = 0 then Action.main else Action.worker (c - 1) (111 * c) (37 * c))

/-- A body for `process` that fails on every task with an even id. -/
def flakyProcess (t : Task) (rName rDelay : Nat) : ProcOut :=
  if t.ID % 2 = 0 then { t.process rName rDelay with err := some "even task" }
  else t.process rName rDelay

/-- A complete schedule of the program as written. -/
def refCodes : List Nat :=
  [0, 0, 1, 0, 1, 0, 1, 2, 0, 1, 2, 0, 1, 3, 0, 1, 2, 3, 0, 1, 2, 4, 0, 1, 2, 4, 2, 3, 2, 3, 2, 3,
   3, 4, 3, 4, 3, 4, 4, 1, 4, 1, 4, 1, 1, 2, 1, 2, 1, 2, 2, 3, 2, 3, 2, 3, 3, 4, 3, 4, 3, 4, 4, 1,
   4, 1, 4, 1, 1, 2, 1, 2, 1, 2, 2, 3, 2, 3, 2, 3, 3, 4, 3, 4, 3, 4, 4, 1, 4, 1, 4, 1, 1, 2, 1, 2,
   1, 2, 2, 3, 2, 3, 2, 3, 3, 4, 3, 4, 3, 4, 4, 1, 4, 1, 4, 1, 1, 2, 1, 2, 1, 2, 1, 2, 3, 2, 3, 2,
   3, 2, 3, 4, 3, 4, 3, 4, 3, 4, 4, 4, 4, 0, 0, 0, 0, 0, 0, 0, 0, 0, 0, 0, 0, 0, 0, 0, 0, 0, 0, 0,
   0, 0, 0, 0, 0]

/-- The state in which `refCodes` ends. -/
def refFinal : State :=
  (run refConfig Task.process (startState refConfig) (schedule refCodes)).getD
    (startState refConfig)

/-- The state after `main` has run `wg.Add(1)` for the first time. -/
def gapState : State := { startState refConfig with wg := 1, main := .go 1 }

/-- A complete schedule of the program with no task and four workers. -/
def emptyCodes : List Nat :=
  [0, 0, 1, 0, 1, 0, 1, 2, 0, 2, 0, 2, 3, 0, 3, 0, 3, 4, 0, 4, 4, 0, 0, 0, 0]

/-- The program with no task, four workers and capacity 20. -/
def emptyConfig : Config := { nTasks := 0, numWorkers := 4, cap := 20 }

/-- The state in which `emptyCodes` ends. -/
def emptyFinal : State :=
  (run emptyConfig Task.process (startState emptyConfig) (schedule emptyCodes)).getD
    (startState emptyConfig)

/-- A complete schedule of the program with `flakyProcess` as the body of `process`. -/
def flakyCodes : List Nat :=
  [0, 0, 1, 0, 1, 0, 1, 2, 0, 1, 2, 0, 1, 2, 3, 0, 1, 2, 3, 0, 1, 2, 3, 4, 0, 1, 2, 3, 4, 2, 3, 4,
   2, 3, 4, 1, 3, 4, 1, 3, 4, 1, 4, 1, 2, 4, 1, 2, 4, 1, 2, 4, 2, 3, 4, 2, 3, 4, 2, 3, 4, 3, 4, 1,
   3, 4, 1, 3, 4, 1, 4, 1, 2, 4, 1, 2, 4, 1, 2, 4, 2, 3, 4, 2, 3, 4, 2, 3, 4, 3, 4, 1, 3, 4, 1, 3,
   4, 1, 3, 4, 1, 2, 1, 2, 1, 2, 1, 2, 2, 2, 2, 0, 0, 0, 0, 0, 0, 0, 0, 0, 0, 0, 0, 0, 0]

/-- The state in which `flakyCodes` ends. -/
def flakyFinal : State :=
  (run refConfig flakyProcess (startState refConfig) (schedule flakyCodes)).getD
    (startState refConfig)

/-- Whether `e` is a record of worker `k` for one of the tasks `1..n`. -/
def isRecordOf (n k : Nat) (e : String) : Bool :=
  (List.range' 1 n).any (fun t => decide (e = resultLine k t))

/-! # Theorems -/

variable {cfg : Config} {proc : Task → Nat → Nat → ProcOut}

/-! ## The step relation, case by case -/

theorem stepMain_sound {s s1 : State} (h : stepMain cfg s = some s1) : Step cfg proc s s1 := by
  unfold stepMain at h
  split at h
  · rename_i i hm
    split at h <;> cases h
    · exact Step.add i hm ‹_›
    · exact Step.addExit i hm ‹_›
  · rename_i i hm; cases h; exact Step.go i hm
  · rename_i hm
    split at h
    · cases h; exact Step.wait hm ‹_›
    · cases h
  · rename_i hm; cases h; exact Step.header hm
  · rename_i hm; cases h; exact Step.range hm
  · rename_i hm; cases h; exact Step.printNil hm
  · rename_i r rest hm; cases h; exact Step.printCons r rest hm
  · cases h

theorem stepWorker_sound {s s1 : State} {j : Nat} {w : Worker} {rName rDelay : Nat}
    (hw : s.workers[j]? = some w) (h : stepWorker proc s j w rName rDelay = some s1) :
    Step cfg proc s s1 := by
  unfold stepWorker at h
  split at h
  · rename_i hpc
    split at h
    · rename_i t q hq; cases h; exact Step.recv j w hw hpc t q hq
    · rename_i hq
      split at h
      · cases h; exact Step.recvEnd j w hw hpc hq ‹_›
      · cases h
  · rename_i t hpc
    split at h
    · rename_i hr
      cases he : (proc t rName rDelay).err with
      | none =>
        simp only [he] at h
        cases h
        exact Step.procOk j w hw t hpc rName rDelay hr he
      | some e =>
        simp only [he] at h
        cases h
        exact Step.procErr j w hw t hpc rName rDelay hr e he
    · cases h
  · rename_i t e hpc; cases h; exact Step.failed j w hw t e hpc
  · rename_i t hpc
    split at h
    · rename_i hmu; cases h; exact Step.lock j w hw t hpc hmu
    · cases h
  · rename_i t hpc; cases h; exact Step.load j w hw t hpc
  · rename_i t old hpc; cases h; exact Step.store j w hw t old hpc
  · rename_i hpc
    split at h
    · rename_i hmu; cases h; exact Step.unlockPanic j w hw hpc hmu
    · rename_i k hmu; cases h; exact Step.unlock j w hw hpc k hmu
  · rename_i hpc; cases h; exact Step.exit j w hw hpc
  · rename_i hpc
    split at h
    · cases h; exact Step.donePanic j w hw hpc ‹_›
    · cases h; exact Step.done j w hw hpc ‹_›
  · cases h

/-- Every move of `step` is one of the cases of `Step`, and `step` never moves a
crashed program. -/
theorem step_sound {s s1 : State} {a : Action} (h : step cfg proc s a = some s1) :
    s.panicked = false ∧ Step cfg proc s s1 := by
  unfold step at h
  split at h
  · cases h
  · rename_i hp
    refine ⟨by simpa using hp, ?_⟩
    cases a with
    | main => exact stepMain_sound h
    | worker j rName rDelay =>
      simp only at h
      split at h
      · rename_i w hw; exact stepWorker_sound hw h
      · cases h

/-! ## The fill loop -/

theorem fillLoop_some (n : Nat) : ∀ (fuel i : Nat) (ch : Chan), ch.closed = false →
    n + 1 ≤ i + fuel → i ≤ n + 1 → ch.buf.length + (n + 1 - i) ≤ ch.cap →
    fillLoop n fuel i ch
      = some { ch with buf := ch.buf ++ (List.range' i (n + 1 - i)).map Task.mk } := by
  intro fuel
  induction fuel with
  | zero =>
    intro i ch _ h1 h2 _
    have hi : n + 1 - i = 0 := by omega
    simp [fillLoop, hi]
  | succ fuel ih =>
    intro i ch hc h1 h2 h3
    unfold fillLoop
    by_cases hin : i ≤ n
    · have hlen : ch.buf.length < ch.cap := by omega
      have hk : n + 1 - i = (n + 1 - (i + 1)) + 1 := by omega
      simp only [hin, if_true, Chan.send, hc, hlen, Bool.false_eq_true, if_false]
      rw [ih (i + 1) _ rfl (by omega) (by omega) (by simp; omega)]
      rw [hk, List.range'_succ]
      simp
    · have hi : n + 1 - i = 0 := by omega
      simp [hin, hi]

theorem fillLoop_none (n : Nat) : ∀ (fuel i : Nat) (ch : Chan), ch.closed = false →
    n + 1 ≤ i + fuel → ch.cap < ch.buf.length + (n + 1 - i) → ch.buf.length ≤ ch.cap →
    fillLoop n fuel i ch = none := by
  intro fuel
  induction fuel with
  | zero => intro i ch _ h1 h2 h3; omega
  | succ fuel ih =>
    intro i ch hc h1 h2 h3
    unfold fillLoop
    have hin : i ≤ n := by omega
    simp only [hin, if_true, Chan.send, hc, Bool.false_eq_true, if_false]
    by_cases hlen : ch.buf.length < ch.cap
    · simp only [hlen, if_true]
      exact ih (i + 1) _ rfl (by omega) (by simp; omega) (by simp; omega)
    · simp [hlen]

theorem filledChan_eq (h : cfg.nTasks ≤ cfg.cap) :
    filledChan cfg = some { cap := cfg.cap, buf := tasksUpTo cfg.nTasks, closed := true } := by
  unfold filledChan
  rw [fillLoop_some cfg.nTasks cfg.nTasks 1 (Chan.make cfg.cap) rfl (by omega) (by omega)
    (by simp [Chan.make]; omega)]
  simp [Chan.make, Chan.close, tasksUpTo]

theorem filledChan_none (h : cfg.cap < cfg.nTasks) : filledChan cfg = none := by
  unfold filledChan
  rw [fillLoop_none cfg.nTasks cfg.nTasks 1 (Chan.make cfg.cap) rfl (by omega)
    (by simp [Chan.make]; omega) (by simp [Chan.make])]
  rfl

theorem initState_some {s0 : State} (h : initState cfg = some s0) :
    cfg.nTasks ≤ cfg.cap ∧ s0 = startState cfg := by
  by_cases hc : cfg.nTasks ≤ cfg.cap
  · refine ⟨hc, ?_⟩
    simp only [initState, filledChan_eq hc, Option.map_some', Option.some.injEq] at h
    exact h.symm
  · simp [initState, filledChan_none (Nat.lt_of_not_le hc)] at h

theorem initState_eq (h : cfg.nTasks ≤ cfg.cap) : initState cfg = some (startState cfg) := by
  simp [initState, filledChan_eq h, startState]

/-! ## Runs and reachability -/

theorem run_append (s : State) (as bs : List Action) :
    run cfg proc s (as ++ bs) = (run cfg proc s as).bind (fun s1 => run cfg proc s1 bs) := by
  induction as generalizing s with
  | nil => rfl
  | cons a as ih =>
    simp only [List.cons_append, run]
    cases step cfg proc s a with
    | none => rfl
    | some s1 => exact ih s1

theorem run_snoc {s s1 : State} {as : List Action} {a : Action}
    (h : run cfg proc s (as ++ [a]) = some s1) :
    ∃ s2, run cfg proc s as = some s2 ∧ step cfg proc s2 a = some s1 := by
  rw [run_append] at h
  cases h2 : run cfg proc s as with
  | none => simp [h2] at h
  | some s2 =>
    refine ⟨s2, rfl, ?_⟩
    simp only [h2, Option.some_bind, run] at h
    cases h3 : step cfg proc s2 a with
    | none => simp [h3] at h
    | some s3 => simpa [h3] using h

theorem reachable_start (proc : Task → Nat → Nat → ProcOut) (h : cfg.nTasks ≤ cfg.cap) :
    Reachable cfg proc (startState cfg) :=
  ⟨[], startState cfg, initState_eq h, rfl⟩

theorem Reachable.next {s s1 : State} {a : Action} (h : Reachable cfg proc s)
    (hs : step cfg proc s a = some s1) : Reachable cfg proc s1 := by
  obtain ⟨as, s0, h0, hr⟩ := h
  refine ⟨as ++ [a], s0, h0, ?_⟩
  rw [run_append, hr]
  simp [run, hs]

/-- Induction over the reachable states. -/
theorem reachable_induction (P : State → Prop)
    (h0 : cfg.nTasks ≤ cfg.cap → P (startState cfg))
    (hs : ∀ s a s1, Reachable cfg proc s → P s → step cfg proc s a = some s1 → P s1) :
    ∀ s, Reachable cfg proc s → P s := by
  rintro s ⟨as, s0, hinit, hr⟩
  obtain ⟨hcap, rfl⟩ := initState_some hinit
  induction as using List.reverseRecOn generalizing s with
  | nil =>
    simp only [run, Option.some.injEq] at hr
    exact hr ▸ h0 hcap
  | append_singleton as a ih =>
    obtain ⟨s2, h2, h3⟩ := run_snoc hr
    exact hs s2 a s ⟨as, _, hinit, h2⟩ (ih s2 h2) h3

/-! ## Structural invariant: identities, spawn loop, mutex, wait group -/

theorem getElem?_setPc {ws : List Worker} {i j : Nat} {w v : Worker} {pc : WPc}
    (hw : ws[j]? = some w) (h : (setPc ws j w pc)[i]? = some v) :
    (i = j ∧ v = { w with pc := pc }) ∨ (i ≠ j ∧ ws[i]? = some v) := by
  unfold setPc at h
  by_cases hij : j = i
  · subst hij
    have hlt : j < ws.length := by
      rcases Nat.lt_or_ge j ws.length with h1 | h1
      · exact h1
      · rw [List.getElem?_eq_none h1] at hw; cases hw
    rw [List.getElem?_set_self hlt] at h
    exact Or.inl ⟨rfl, (Option.some.inj h).symm⟩
  · rw [List.getElem?_set_ne hij] at h
    exact Or.inr ⟨fun e => hij e.symm, h⟩

theorem getElem?_setPc_self {ws : List Worker} {j : Nat} {w : Worker} (pc : WPc)
    (hw : ws[j]? = some w) : (setPc ws j w pc)[j]? = some { w with pc := pc } := by
  have hlt : j < ws.length := by
    rcases Nat.lt_or_ge j ws.length with h1 | h1
    · exact h1
    · rw [List.getElem?_eq_none h1] at hw; cases hw
  simp [setPc, List.getElem?_set_self hlt]

theorem length_setPc (ws : List Worker) (j : Nat) (w : Worker) (pc : WPc) :
    (setPc ws j w pc).length = ws.length := by
  simp [setPc]

theorem mem_setPc {ws : List Worker} {j : Nat} {w v : Worker} {pc : WPc}
    (hw : ws[j]? = some w) (h : v ∈ setPc ws j w pc) :
    v = { w with pc := pc } ∨ v ∈ ws := by
  obtain ⟨i, hi⟩ := List.mem_iff_getElem?.mp h
  rcases getElem?_setPc hw hi with ⟨_, h1⟩ | ⟨_, h1⟩
  · exact Or.inl h1
  · exact Or.inr (List.mem_iff_getElem?.mpr ⟨i, h1⟩)

theorem getElem?_snoc {α : Type} {l : List α} {x v : α} {i : Nat}
    (h : (l ++ [x])[i]? = some v) : l[i]? = some v ∨ (i = l.length ∧ v = x) := by
  rcases Nat.lt_or_ge i l.length with h1 | h1
  · rw [List.getElem?_append_left h1] at h; exact Or.inl h
  · rw [List.getElem?_append_right h1] at h
    right
    rcases Nat.eq_zero_or_pos (i - l.length) with h2 | h2
    · rw [h2] at h
      simp at h
      exact ⟨by omega, h.symm⟩
    · rw [List.getElem?_eq_none (by simp; omega)] at h; cases h

/-- Updating one element changes a sum over the list by the difference at that element. -/
theorem sum_map_set {α : Type} (f : α → Nat) : ∀ (l : List α) (j : Nat) (x y : α),
    l[j]? = some x → ((l.set j y).map f).sum + f x = (l.map f).sum + f y
  | [], j, x, y, h => by simp at h
  | a :: l, 0, x, y, h => by
    simp at h
    subst h
    simp only [List.set_cons_zero, List.map_cons, List.sum_cons]; omega
  | a :: l, j + 1, x, y, h => by
    simp at h
    have := sum_map_set f l j x y h
    simp only [List.set_cons_succ, List.map_cons, List.sum_cons]; omega

theorem liveCount_setPc {ws : List Worker} {j : Nat} {w : Worker} (pc : WPc)
    (hw : ws[j]? = some w) :
    liveCount (setPc ws j w pc) + w.pc.live = liveCount ws + pc.live := by
  unfold liveCount setPc
  exact sum_map_set (fun w => w.pc.live) ws j w _ hw

theorem liveCount_eq_zero {ws : List Worker} (h : liveCount ws = 0) :
    ∀ v ∈ ws, v.pc = .finished := by
  intro v hv
  unfold liveCount at h
  have h1 : v.pc.live = 0 := by
    have := List.sum_eq_zero_iff.mp h (v.pc.live) (List.mem_map.mpr ⟨v, hv, rfl⟩)
    exact this
  cases hpc : v.pc <;> simp [hpc, WPc.live] at h1 ⊢

theorem invA_start : InvA cfg (startState cfg) := by
  constructor <;> simp [startState, stateAfterClose, spawnOk, liveCount, MPc.gap, MPc.pastWait]

theorem lt_length_of_getElem? {α : Type} {l : List α} {j : Nat} {x : α} (h : l[j]? = some x) :
    j < l.length := by
  rcases Nat.lt_or_ge j l.length with h1 | h1
  · exact h1
  · rw [List.getElem?_eq_none h1] at h; cases h

theorem invA_step {s s1 : State} (hI : InvA cfg s) (hs : Step cfg proc s s1) : InvA cfg s1 := by
  obtain ⟨hP, hC, hIds, hSp, hMu, hHo, hWg, hJ⟩ := hI
  have mainCase : ∀ (m : MPc) (wg : Int) (out : List String),
      spawnOk cfg.numWorkers m s.workers.length →
      wg = (liveCount s.workers : Int) + (m.gap : Int) →
      (m.pastWait = true → ∀ v ∈ s.workers, v.pc = .finished) →
      InvA cfg { s with main := m, wg := wg, out := out } :=
    fun m wg out h1 h2 h3 => ⟨hP, hC, hIds, h1, hMu, hHo, h2, h3⟩
  have workerCase : ∀ (j : Nat) (w : Worker) (pc : WPc) (mu : Option Nat) (wg : Int)
      (s2 : State), s.workers[j]? = some w →
      s2.panicked = false → s2.closed = true → s2.main = s.main →
      s2.workers = setPc s.workers j w pc → s2.mu = mu → s2.wg = wg →
      (∀ i v, s.workers[i]? = some v → i ≠ j → (v.pc.inCS = true ↔ mu = some v.id)) →
      (pc.inCS = true ↔ mu = some w.id) →
      (∀ k, mu = some k → 1 ≤ k ∧ k ≤ s.workers.length) →
      wg + w.pc.live = s.wg + pc.live →
      (w.pc ≠ .finished) →
      InvA cfg s2 := by
    intro j w pc mu wg s2 hw e1 e2 e3 e4 e5 e6 hmu1 hmu2 hho hwg hnf
    refine ⟨e1, e2, ?_, ?_, ?_, ?_, ?_, ?_⟩
    · intro i v hv
      rw [e4] at hv
      rcases getElem?_setPc hw hv with ⟨rfl, rfl⟩ | ⟨_, h1⟩
      · exact hIds i w hw
      · exact hIds i v h1
    · rw [e3, e4, length_setPc]; exact hSp
    · intro i v hv
      rw [e4] at hv
      rw [e5]
      rcases getElem?_setPc hw hv with ⟨rfl, rfl⟩ | ⟨hne, h1⟩
      · exact hmu2
      · exact hmu1 i v h1 hne
    · intro k hk
      rw [e5] at hk
      rw [e4, length_setPc]
      exact hho k hk
    · rw [e6, e3, e4]
      have := liveCount_setPc pc hw
      omega
    · intro hpw v hv
      rw [e3] at hpw
      have hw' : w ∈ s.workers := List.mem_iff_getElem?.mpr ⟨j, hw⟩
      exact absurd (hJ hpw w hw') hnf
  have others : ∀ (j : Nat) (w : Worker), s.workers[j]? = some w →
      ∀ i v, s.workers[i]? = some v → i ≠ j → v.id ≠ w.id := by
    intro j w hw i v hv hne
    rw [hIds i v hv, hIds j w hw]; omega
  cases hs with
  | add i hm hi =>
    refine mainCase (.go i) (s.wg + 1) s.out ?_ ?_ ?_
    · rw [hm] at hSp; simp only [spawnOk] at hSp ⊢; omega
    · rw [hWg, hm]; simp [MPc.gap]
    · simp [MPc.pastWait]
  | addExit i hm hi =>
    refine mainCase .wait s.wg s.out ?_ ?_ ?_
    · rw [hm] at hSp; simp only [spawnOk] at hSp ⊢; omega
    · rw [hWg, hm]; simp [MPc.gap]
    · simp [MPc.pastWait]
  | go i hm =>
    rw [hm] at hSp
    simp only [spawnOk] at hSp
    refine ⟨hP, hC, ?_, ?_, ?_, ?_, ?_, ?_⟩
    · intro k v hv
      rcases getElem?_snoc hv with h1 | ⟨h1, h2⟩
      · exact hIds k v h1
      · subst h2; simp only; omega
    · simp only [spawnOk, List.length_append, List.length_singleton]; omega
    · intro k v hv
      rcases getElem?_snoc hv with h1 | ⟨h1, h2⟩
      · exact hMu k v h1
      · subst h2
        simp only [WPc.inCS, Bool.false_eq_true, false_iff]
        intro hmu
        have := hHo i hmu
        omega
    · intro k hk
      have := hHo k hk
      simp only [List.length_append, List.length_singleton]; omega
    · simp only [hWg, hm, liveCount, MPc.gap, List.map_append, List.sum_append]
      simp [WPc.live]
    · simp [MPc.pastWait]
  | wait hm hwg =>
    refine mainCase .header s.wg s.out ?_ ?_ ?_
    · rw [hm] at hSp; simpa [spawnOk] using hSp
    · rw [hWg, hm]; simp [MPc.gap]
    · intro _
      apply liveCount_eq_zero
      rw [hWg, hm] at hwg
      simp only [MPc.gap] at hwg
      omega
  | header hm =>
    refine mainCase .range s.wg _ ?_ ?_ ?_
    · rw [hm] at hSp; simpa [spawnOk] using hSp
    · rw [hWg, hm]; simp [MPc.gap]
    · intro _; exact hJ (by rw [hm]; rfl)
  | range hm =>
    refine mainCase (.print s.results) s.wg s.out ?_ ?_ ?_
    · rw [hm] at hSp; simpa [spawnOk] using hSp
    · rw [hWg, hm]; simp [MPc.gap]
    · intro _; exact hJ (by rw [hm]; rfl)
  | printNil hm =>
    refine mainCase .done s.wg s.out ?_ ?_ ?_
    · rw [hm] at hSp; simpa [spawnOk] using hSp
    · rw [hWg, hm]; simp [MPc.gap]
    · intro _; exact hJ (by rw [hm]; rfl)
  | printCons r rest hm =>
    refine mainCase (.print rest) s.wg _ ?_ ?_ ?_
    · rw [hm] at hSp; simpa [spawnOk] using hSp
    · rw [hWg, hm]; simp [MPc.gap]
    · intro _; exact hJ (by rw [hm]; rfl)
  | recv j w hw hpc t q hq =>
    have hcs := hMu j w hw
    refine workerCase j w (.process t) s.mu s.wg _ hw hP hC rfl rfl rfl rfl
      (fun i v hv _ => hMu i v hv) ?_ hHo ?_ ?_
    · rw [← hcs, hpc]; simp [WPc.inCS]
    · rw [hpc]; simp [WPc.live]
    · rw [hpc]; simp
  | recvEnd j w hw hpc hq hc =>
    have hcs := hMu j w hw
    refine workerCase j w .exit s.mu s.wg _ hw hP hC rfl rfl rfl rfl
      (fun i v hv _ => hMu i v hv) ?_ hHo ?_ ?_
    · rw [← hcs, hpc]; simp [WPc.inCS]
    · rw [hpc]; simp [WPc.live]
    · rw [hpc]; simp
  | procOk j w hw t hpc rName rDelay hr he =>
    have hcs := hMu j w hw
    refine workerCase j w (.lock t) s.mu s.wg _ hw hP hC rfl rfl rfl rfl
      (fun i v hv _ => hMu i v hv) ?_ hHo ?_ ?_
    · rw [← hcs, hpc]; simp [WPc.inCS]
    · rw [hpc]; simp [WPc.live]
    · rw [hpc]; simp
  | procErr j w hw t hpc rName rDelay hr e he =>
    have hcs := hMu j w hw
    refine workerCase j w (.failed t e) s.mu s.wg _ hw hP hC rfl rfl rfl rfl
      (fun i v hv _ => hMu i v hv) ?_ hHo ?_ ?_
    · rw [← hcs, hpc]; simp [WPc.inCS]
    · rw [hpc]; simp [WPc.live]
    · rw [hpc]; simp
  | failed j w hw t e hpc =>
    have hcs := hMu j w hw
    refine workerCase j w .recv s.mu s.wg _ hw hP hC rfl rfl rfl rfl
      (fun i v hv _ => hMu i v hv) ?_ hHo ?_ ?_
    · rw [← hcs, hpc]; simp [WPc.inCS]
    · rw [hpc]; simp [WPc.live]
    · rw [hpc]; simp
  | lock j w hw t hpc hmu =>
    refine workerCase j w (.load t) (some w.id) s.wg _ hw hP hC rfl rfl rfl rfl ?_ ?_ ?_ ?_ ?_
    · intro i v hv hne
      have h1 := hMu i v hv
      have h2 := others j w hw i v hv hne
      rw [hmu] at h1
      simp only [Option.some.injEq]
      constructor
      · intro h; exact absurd (h1.mp h) (by simp)
      · intro h; exact absurd h.symm h2
    · simp [WPc.inCS]
    · intro k hk
      simp only [Option.some.injEq] at hk
      subst hk
      have := hIds j w hw
      have := lt_length_of_getElem? hw
      omega
    · rw [hpc]; simp [WPc.live]
    · rw [hpc]; simp
  | load j w hw t hpc =>
    have hcs := hMu j w hw
    refine workerCase j w (.store t s.results) s.mu s.wg _ hw hP hC rfl rfl rfl rfl
      (fun i v hv _ => hMu i v hv) ?_ hHo ?_ ?_
    · rw [← hcs, hpc]; simp [WPc.inCS]
    · rw [hpc]; simp [WPc.live]
    · rw [hpc]; simp
  | store j w hw t old hpc =>
    have hcs := hMu j w hw
    refine workerCase j w .unlock s.mu s.wg _ hw hP hC rfl rfl rfl rfl
      (fun i v hv _ => hMu i v hv) ?_ hHo ?_ ?_
    · rw [← hcs, hpc]; simp [WPc.inCS]
    · rw [hpc]; simp [WPc.live]
    · rw [hpc]; simp
  | unlockPanic j w hw hpc hmu =>
    have hcs := hMu j w hw
    rw [hpc, hmu] at hcs
    simp [WPc.inCS] at hcs
  | unlock j w hw hpc k hmu =>
    have hcs := hMu j w hw
    rw [hpc, hmu] at hcs
    simp only [WPc.inCS, true_iff, Option.some.injEq] at hcs
    refine workerCase j w .recv none s.wg _ hw hP hC rfl rfl rfl rfl ?_ ?_ ?_ ?_ ?_
    · intro i v hv hne
      have h1 := hMu i v hv
      have h2 := others j w hw i v hv hne
      rw [hmu] at h1
      simp only [Option.some.injEq] at h1
      constructor
      · intro h; exact absurd ((h1.mp h).symm.trans hcs) h2
      · intro h; cases h
    · simp [WPc.inCS]
    · intro k hk; cases hk
    · rw [hpc]; simp [WPc.live]
    · rw [hpc]; simp
  | exit j w hw hpc =>
    have hcs := hMu j w hw
    refine workerCase j w .done s.mu s.wg _ hw hP hC rfl rfl rfl rfl
      (fun i v hv _ => hMu i v hv) ?_ hHo ?_ ?_
    · rw [← hcs, hpc]; simp [WPc.inCS]
    · rw [hpc]; simp [WPc.live]
    · rw [hpc]; simp
  | donePanic j w hw hpc hwg =>
    exfalso
    have h1 := liveCount_setPc .finished hw
    rw [hpc] at h1
    simp only [WPc.live] at h1
    omega
  | done j w hw hpc hwg =>
    have hcs := hMu j w hw
    refine workerCase j w .finished s.mu (s.wg - 1) _ hw hP hC rfl rfl rfl rfl
      (fun i v hv _ => hMu i v hv) ?_ hHo ?_ ?_
    · rw [← hcs, hpc]; simp [WPc.inCS]
    · rw [hpc]; simp [WPc.live]
    · rw [hpc]; simp

theorem invA_of_reachable {s : State} (h : Reachable cfg proc s) : InvA cfg s := by
  refine reachable_induction (fun s => InvA cfg s) (fun _ => invA_start) ?_ s h
  intro s a s1 _ hI hs
  exact invA_step hI (step_sound hs).2

/-! ## The queue is consumed in order and stays empty once a worker has seen it empty -/

theorem invQ_start : InvQ cfg (startState cfg) := by
  constructor
  · simp [startState, stateAfterClose, tasksUpTo, Function.comp_def]
  · simp [startState, stateAfterClose]

theorem drained_setPc {ws : List Worker} {q : List Task} {j : Nat} {w : Worker} {pc : WPc}
    (h : ∀ v ∈ ws, v.pc.leftLoop = true → q = []) (hw : ws[j]? = some w)
    (hpc : pc.leftLoop = true → q = []) :
    ∀ v ∈ setPc ws j w pc, v.pc.leftLoop = true → q = [] := by
  intro v hv hl
  rcases mem_setPc hw hv with rfl | h1
  · exact hpc hl
  · exact h v h1 hl

theorem invQ_step {s s1 : State} (hI : InvQ cfg s) (hs : Step cfg proc s s1) : InvQ cfg s1 := by
  obtain ⟨hF, hD⟩ := hI
  cases hs
  case go i hm =>
    refine ⟨hF, ?_⟩
    intro v hv hl
    rcases List.mem_append.mp hv with h1 | h1
    · exact hD v h1 hl
    · simp only [List.mem_singleton] at h1
      subst h1
      simp [WPc.leftLoop] at hl
  case recv j w hw hpc t q hq =>
    constructor
    · rw [hq] at hF
      simpa using hF
    · intro v hv hl
      rcases mem_setPc hw hv with rfl | h1
      · simp [WPc.leftLoop] at hl
      · have := hD v h1 hl
        rw [hq] at this; cases this
  case recvEnd j w hw hpc hq hc => exact ⟨hF, drained_setPc hD hw (fun _ => hq)⟩
  case exit j w hw hpc =>
    have hw' : w ∈ s.workers := List.mem_iff_getElem?.mpr ⟨j, hw⟩
    exact ⟨hF, drained_setPc hD hw (fun _ => hD w hw' (by rw [hpc]; rfl))⟩
  case done j w hw hpc hwg =>
    have hw' : w ∈ s.workers := List.mem_iff_getElem?.mpr ⟨j, hw⟩
    exact ⟨hF, drained_setPc hD hw (fun _ => hD w hw' (by rw [hpc]; rfl))⟩
  all_goals first
    | exact ⟨hF, hD⟩
    | exact ⟨hF, drained_setPc hD ‹_› (fun h => by simp [WPc.leftLoop] at h)⟩

theorem invQ_of_reachable {s : State} (h : Reachable cfg proc s) : InvQ cfg s := by
  refine reachable_induction (fun s => InvQ cfg s) (fun _ => invQ_start) ?_ s h
  intro s a s1 _ hI hs
  exact invQ_step hI (step_sound hs).2

/-! ## Appends under the lock are not lost -/

theorem invR_start : InvR (startState cfg) := by
  constructor <;> simp [startState, stateAfterClose]

theorem snap_setPc {ws : List Worker} {res : List String} {j : Nat} {w : Worker} {pc : WPc}
    (h : ∀ (i : Nat) (v : Worker) (t : Task) (old : List String),
      ws[i]? = some v → v.pc = .store t old → old = res)
    (hw : ws[j]? = some w) (hpc : ∀ t old, pc = .store t old → old = res) :
    ∀ (i : Nat) (v : Worker) (t : Task) (old : List String),
      (setPc ws j w pc)[i]? = some v → v.pc = .store t old → old = res := by
  intro i v t old hv hst
  rcases getElem?_setPc hw hv with ⟨_, rfl⟩ | ⟨_, h1⟩
  · exact hpc t old hst
  · exact h i v t old h1 hst

theorem invR_step {s s1 : State} (hA : InvA cfg s) (hI : InvR s) (hs : Step cfg proc s s1) :
    InvR s1 := by
  obtain ⟨hS, hR⟩ := hI
  cases hs
  case go i hm =>
    refine ⟨?_, hR⟩
    intro k v t old hv hst
    rcases getElem?_snoc hv with h1 | ⟨_, h2⟩
    · exact hS k v t old h1 hst
    · subst h2; cases hst
  case load j w hw t hpc =>
    exact ⟨snap_setPc hS hw (fun t old h => by cases h; rfl), hR⟩
  case store j w hw t old hpc =>
    have hold := hS j w t old hw hpc
    constructor
    · intro i v t2 old2 hv hst
      rcases getElem?_setPc hw hv with ⟨_, rfl⟩ | ⟨hne, h1⟩
      · cases hst
      · exfalso
        have h2 := (hA.mutex i v h1).mp (by rw [hst]; rfl)
        have h3 := (hA.mutex j w hw).mp (by rw [hpc]; rfl)
        have h4 := hA.ids i v h1
        have h5 := hA.ids j w hw
        rw [h2] at h3
        simp only [Option.some.injEq] at h3
        omega
    · simp only [List.map_append, List.map_cons, List.map_nil, hold, hR, recordOf]
  all_goals first
    | exact ⟨hS, hR⟩
    | exact ⟨snap_setPc hS ‹_› (fun _ _ h => by cases h), hR⟩

theorem invR_of_reachable {s : State} (h : Reachable cfg proc s) : InvR s := by
  refine reachable_induction (fun s => InvR s) (fun _ => invR_start) ?_ s h
  intro s a s1 hr hI hs
  exact invR_step (invA_of_reachable hr) hI (step_sound hs).2

/-! ## Per-worker histories -/

theorem byWorker_append_self {α : Type} (k : Nat) (l : List (Nat × α)) (d : List α) :
    byWorker k (l ++ d.map (fun x => (k, x))) = byWorker k l ++ d := by
  unfold byWorker
  rw [List.filter_append, List.map_append]
  congr 1
  induction d with
  | nil => rfl
  | cons x d ih => simp [List.filter_cons, ih]

theorem byWorker_append_ne {α : Type} {k k1 : Nat} (h : k1 ≠ k) (l : List (Nat × α))
    (d : List α) : byWorker k (l ++ d.map (fun x => (k1, x))) = byWorker k l := by
  unfold byWorker
  rw [List.filter_append, List.map_append]
  have : List.filter (fun p => decide (p.1 = k)) (d.map (fun x => (k1, x))) = [] := by
    induction d with
    | nil => rfl
    | cons x d ih => simp [List.filter_cons, ih, h]
  rw [this]; simp

theorem byWorker_eq_nil {α : Type} {k : Nat} {l : List (Nat × α)} (h : ∀ p ∈ l, p.1 ≠ k) :
    byWorker k l = [] := by
  unfold byWorker
  rw [List.filter_eq_nil_iff.mpr]
  · rfl
  · intro p hp; simpa using h p hp

theorem invL_start : InvL proc (startState cfg) := by
  constructor <;> simp [startState, stateAfterClose]

/-- A step of `main` other than the `go` statement. -/
theorem invL_main {s s2 : State} (hI : InvL proc s)
    (e1 : s2.workers = s.workers) (e2 : s2.recvLog = s.recvLog) (e3 : s2.procLog = s.procLog)
    (e4 : s2.storeLog = s.storeLog) (e5 : s2.doneLog = s.doneLog) : InvL proc s2 := by
  obtain ⟨h1, h2, h3, h4, h5, h6, h7⟩ := hI
  constructor
  · rw [e1, e2]; exact h1
  · rw [e1, e3]; exact h2
  · rw [e1, e4]; exact h3
  · rw [e1, e5]; exact h4
  · rw [e1, e2, e3, e4]; exact h5
  · rw [e1, e5]; exact h6
  · rw [e3]; exact h7

/-- A step of the `j`-th goroutine that moves it to `pc` and extends its
histories by `dR`, `dP`, `dS` and `n` completion signals. -/
theorem invL_worker {s s2 : State} (hA : InvA cfg s) (hI : InvL proc s) {j : Nat} {w : Worker}
    (hw : s.workers[j]? = some w) (pc : WPc) (dR : List Nat) (dP : List (Nat × Bool))
    (dS : List Nat) (n : Nat)
    (e1 : s2.workers = setPc s.workers j w pc)
    (e2 : s2.recvLog = s.recvLog ++ dR.map (fun x => (w.id, x)))
    (e3 : s2.procLog = s.procLog ++ dP.map (fun x => (w.id, x)))
    (e4 : s2.storeLog = s.storeLog ++ dS.map (fun x => (w.id, x)))
    (e5 : s2.doneLog = s.doneLog ++ List.replicate n w.id)
    (hloc : LocalLog pc (byWorker w.id s.recvLog ++ dR) (byWorker w.id s.procLog ++ dP)
      (byWorker w.id s.storeLog ++ dS))
    (hdone : s.doneLog.count w.id + n = if pc = .finished then 1 else 0)
    (hsrc : ∀ x ∈ dP, ∃ r1 r2, r1 < 1000 ∧ r2 < 400 ∧
      x.2 = (proc { ID := x.1 } r1 r2).err.isNone) : InvL proc s2 := by
  obtain ⟨h1, h2, h3, h4, h5, h6, h7⟩ := hI
  have hid := hA.ids j w hw
  have hlt := lt_length_of_getElem? hw
  have hrange : 1 ≤ w.id ∧ w.id ≤ s.workers.length := by omega
  constructor
  · intro p hp
    rw [e1, length_setPc]
    rw [e2] at hp
    rcases List.mem_append.mp hp with h | h
    · exact h1 p h
    · obtain ⟨x, _, rfl⟩ := List.mem_map.mp h; exact hrange
  · intro p hp
    rw [e1, length_setPc]
    rw [e3] at hp
    rcases List.mem_append.mp hp with h | h
    · exact h2 p h
    · obtain ⟨x, _, rfl⟩ := List.mem_map.mp h; exact hrange
  · intro p hp
    rw [e1, length_setPc]
    rw [e4] at hp
    rcases List.mem_append.mp hp with h | h
    · exact h3 p h
    · obtain ⟨x, _, rfl⟩ := List.mem_map.mp h; exact hrange
  · intro k hk
    rw [e1, length_setPc]
    rw [e5] at hk
    rcases List.mem_append.mp hk with h | h
    · exact h4 k h
    · rw [(List.mem_replicate.mp h).2]; exact hrange
  · intro i v hv
    rw [e1] at hv
    rw [e2, e3, e4]
    rcases getElem?_setPc hw hv with ⟨_, rfl⟩ | ⟨hne, hv1⟩
    · simp only [byWorker_append_self]; exact hloc
    · have hne2 : w.id ≠ v.id := by rw [hA.ids i v hv1, hid]; omega
      simp only [byWorker_append_ne hne2]
      exact h5 i v hv1
  · intro i v hv
    rw [e1] at hv
    rw [e5, List.count_append, List.count_replicate]
    rcases getElem?_setPc hw hv with ⟨_, rfl⟩ | ⟨hne, hv1⟩
    · simpa using hdone
    · have hne2 : w.id ≠ v.id := by rw [hA.ids i v hv1, hid]; omega
      simp only [beq_iff_eq, hne2, if_false, Nat.add_zero]
      exact h6 i v hv1
  · intro p hp
    rw [e3] at hp
    rcases List.mem_append.mp hp with h | h
    · exact h7 p h
    · obtain ⟨x, hx, rfl⟩ := List.mem_map.mp h; exact hsrc x hx

theorem invL_step {s s1 : State} (hA : InvA cfg s) (hI : InvL proc s)
    (hs : Step cfg proc s s1) : InvL proc s1 := by
  cases hs
  case go i hm =>
    obtain ⟨h1, h2, h3, h4, h5, h6, h7⟩ := hI
    have hsp := hA.spawn
    rw [hm] at hsp
    simp only [spawnOk] at hsp
    have wide : ∀ k, (1 ≤ k ∧ k ≤ s.workers.length) →
        1 ≤ k ∧ k ≤ (s.workers ++ [({ id := i, pc := .recv } : Worker)]).length := by
      intro k hk; simp only [List.length_append, List.length_singleton]; omega
    refine ⟨fun p hp => wide _ (h1 p hp), fun p hp => wide _ (h2 p hp),
      fun p hp => wide _ (h3 p hp), fun k hk => wide _ (h4 k hk), ?_, ?_, h7⟩
    · intro k v hv
      rcases getElem?_snoc hv with hv1 | ⟨_, rfl⟩
      · exact h5 k v hv1
      · simp only
        rw [byWorker_eq_nil (fun p hp => by have := h1 p hp; omega),
          byWorker_eq_nil (fun p hp => by have := h2 p hp; omega),
          byWorker_eq_nil (fun p hp => by have := h3 p hp; omega)]
        simp [LocalLog, okTasks]
    · intro k v hv
      rcases getElem?_snoc hv with hv1 | ⟨_, rfl⟩
      · exact h6 k v hv1
      · simp only [reduceCtorEq, if_false]
        apply List.count_eq_zero_of_not_mem
        intro hmem
        have := h4 i hmem
        omega
  case recv j w hw hpc t q hq =>
    have hl := hI.loc j w hw
    have hd := hI.doneOnce j w hw
    rw [hpc] at hl hd
    simp only [LocalLog] at hl
    refine invL_worker hA hI hw (.process t) [t.ID] [] [] 0 rfl rfl (by simp) (by simp)
      (by simp) ?_ (by simpa using hd) (by simp)
    simp only [LocalLog, List.append_nil]
    exact ⟨by rw [hl.1], hl.2⟩
  case procOk j w hw t hpc rName rDelay hr he =>
    have hl := hI.loc j w hw
    have hd := hI.doneOnce j w hw
    rw [hpc] at hl hd
    simp only [LocalLog] at hl
    refine invL_worker hA hI hw (.lock t) [] [(t.ID, true)] [] 0 rfl (by simp) rfl (by simp)
      (by simp) ?_ (by simpa using hd) ?_
    · simp only [LocalLog, List.append_nil, List.map_append, List.map_cons, List.map_nil]
      refine ⟨hl.1.symm, ?_⟩
      rw [hl.2]; simp [okTasks]
    · intro x hx
      simp only [List.mem_singleton] at hx
      subst hx
      exact ⟨rName, rDelay, hr.1, hr.2, by simp [he]⟩
  case procErr j w hw t hpc rName rDelay hr e he =>
    have hl := hI.loc j w hw
    have hd := hI.doneOnce j w hw
    rw [hpc] at hl hd
    simp only [LocalLog] at hl
    refine invL_worker hA hI hw (.failed t e) [] [(t.ID, false)] [] 0 rfl (by simp) rfl
      (by simp) (by simp) ?_ (by simpa using hd) ?_
    · simp only [LocalLog, List.append_nil, List.map_append, List.map_cons, List.map_nil]
      refine ⟨hl.1.symm, ?_⟩
      rw [hl.2]; simp [okTasks]
    · intro x hx
      simp only [List.mem_singleton] at hx
      subst hx
      exact ⟨rName, rDelay, hr.1, hr.2, by simp [he]⟩
  case store j w hw t old hpc =>
    have hl := hI.loc j w hw
    have hd := hI.doneOnce j w hw
    rw [hpc] at hl hd
    simp only [LocalLog] at hl
    refine invL_worker hA hI hw .unlock [] [] [t.ID] 0 rfl (by simp) (by simp) rfl
      (by simp) ?_ (by simpa using hd) (by simp)
    simp only [LocalLog, List.append_nil]
    exact ⟨hl.1, hl.2.symm⟩
  case done j w hw hpc hwg =>
    have hl := hI.loc j w hw
    have hd := hI.doneOnce j w hw
    rw [hpc] at hl hd
    simp only [LocalLog] at hl
    refine invL_worker hA hI hw .finished [] [] [] 1 rfl (by simp) (by simp) (by simp)
      (by simp) ?_ (by simpa using hd) (by simp)
    simp only [LocalLog, List.append_nil]
    exact hl
  case recvEnd j w hw hpc hq hc =>
    have hl := hI.loc j w hw
    have hd := hI.doneOnce j w hw
    rw [hpc] at hl hd
    exact invL_worker hA hI hw .exit [] [] [] 0 rfl (by simp) (by simp) (by simp)
      (by simp) (by simpa [LocalLog] using hl) (by simpa using hd) (by simp)
  case failed j w hw t e hpc =>
    have hl := hI.loc j w hw
    have hd := hI.doneOnce j w hw
    rw [hpc] at hl hd
    exact invL_worker hA hI hw .recv [] [] [] 0 rfl (by simp) (by simp) (by simp)
      (by simp) (by simpa [LocalLog] using hl) (by simpa using hd) (by simp)
  case lock j w hw t hpc hmu =>
    have hl := hI.loc j w hw
    have hd := hI.doneOnce j w hw
    rw [hpc] at hl hd
    exact invL_worker hA hI hw (.load t) [] [] [] 0 rfl (by simp) (by simp) (by simp)
      (by simp) (by simpa [LocalLog] using hl) (by simpa using hd) (by simp)
  case load j w hw t hpc =>
    have hl := hI.loc j w hw
    have hd := hI.doneOnce j w hw
    rw [hpc] at hl hd
    exact invL_worker hA hI hw (.store t s.results) [] [] [] 0 rfl (by simp) (by simp)
      (by simp) (by simp) (by simpa [LocalLog] using hl) (by simpa using hd) (by simp)
  case unlock j w hw hpc k hmu =>
    have hl := hI.loc j w hw
    have hd := hI.doneOnce j w hw
    rw [hpc] at hl hd
    exact invL_worker hA hI hw .recv [] [] [] 0 rfl (by simp) (by simp) (by simp)
      (by simp) (by simpa [LocalLog] using hl) (by simpa using hd) (by simp)
  case exit j w hw hpc =>
    have hl := hI.loc j w hw
    have hd := hI.doneOnce j w hw
    rw [hpc] at hl hd
    exact invL_worker hA hI hw .done [] [] [] 0 rfl (by simp) (by simp) (by simp)
      (by simp) (by simpa [LocalLog] using hl) (by simpa using hd) (by simp)
  case unlockPanic j w hw hpc hmu =>
    exact invL_main hI rfl rfl rfl rfl rfl
  case donePanic j w hw hpc hwg =>
    exact invL_main hI rfl rfl rfl rfl rfl
  all_goals exact invL_main hI rfl rfl rfl rfl rfl

theorem invL_of_reachable {s : State} (h : Reachable cfg proc s) : InvL proc s := by
  refine reachable_induction (fun s => InvL proc s) (fun _ => invL_start) ?_ s h
  intro s a s1 hr hI hs
  exact invL_step (invA_of_reachable hr) hI (step_sound hs).2

/-! ## From per-worker histories to global facts -/

theorem count_pair_eq {α : Type} [DecidableEq α] (k : Nat) (x : α) (l : List (Nat × α)) :
    @List.count (Nat × α) instBEqOfDecidableEq (k, x) l
      = @List.count α instBEqOfDecidableEq x (byWorker k l) := by
  show List.countP (fun p => decide (p = (k, x))) l
    = List.countP (fun y => decide (y = x)) (byWorker k l)
  unfold byWorker
  induction l with
  | nil => rfl
  | cons p l ih =>
    obtain ⟨a, b⟩ := p
    by_cases h : a = k
    · by_cases hb : b = x
      · simp [List.countP_cons, List.filter_cons, h, hb, ih]
      · simp [List.countP_cons, List.filter_cons, h, hb, ih]
    · simp [List.countP_cons, List.filter_cons, h, ih]

/-- Two logs with the same per-worker histories are permutations of each other. -/
theorem perm_of_byWorker {α : Type} [DecidableEq α] {A B : List (Nat × α)}
    (h : ∀ k, byWorker k A = byWorker k B) : A.Perm B := by
  rw [List.perm_iff_count]
  rintro ⟨k, x⟩
  rw [count_pair_eq, count_pair_eq, h k]

theorem byWorker_procPairs (k : Nat) (l : List (Nat × Nat × Bool)) :
    byWorker k (procPairs l) = (byWorker k l).map Prod.fst := by
  unfold byWorker procPairs
  induction l with
  | nil => rfl
  | cons p l ih =>
    by_cases h : p.1 = k <;> simp [List.filter_cons, h, ih]

theorem byWorker_okPairs (k : Nat) (l : List (Nat × Nat × Bool)) :
    byWorker k (okPairs l) = okTasks (byWorker k l) := by
  unfold byWorker okPairs okTasks
  induction l with
  | nil => rfl
  | cons p l ih =>
    by_cases h : p.1 = k <;> by_cases h2 : p.2.2 = true <;> simp [List.filter_cons, h, h2, ih]

theorem okTasks_sublist (l : List (Nat × Bool)) : (okTasks l).Sublist (l.map Prod.fst) := by
  unfold okTasks
  exact (List.filter_sublist l).map _

/-- The histories of an identity that no spawned goroutine carries are empty. -/
theorem byWorker_unspawned {s : State} (hL : InvL proc s) {k : Nat}
    (hk : ¬ (1 ≤ k ∧ k ≤ s.workers.length)) :
    byWorker k s.recvLog = [] ∧ byWorker k s.procLog = [] ∧ byWorker k s.storeLog = [] := by
  refine ⟨byWorker_eq_nil ?_, byWorker_eq_nil ?_, byWorker_eq_nil ?_⟩
  · intro p hp h; rw [← h] at hk; exact hk (hL.recvIds p hp)
  · intro p hp h; rw [← h] at hk; exact hk (hL.procIds p hp)
  · intro p hp h; rw [← h] at hk; exact hk (hL.storeIds p hp)

/-- The goroutine carrying identity `k`, for `k` in `1..spawned`. -/
theorem worker_of_id {s : State} (hA : InvA cfg s) {k : Nat}
    (hk : 1 ≤ k ∧ k ≤ s.workers.length) :
    ∃ v, s.workers[k - 1]? = some v ∧ v.id = k ∧ v ∈ s.workers := by
  have hlt : k - 1 < s.workers.length := by omega
  have hv : s.workers[k - 1]? = some s.workers[k - 1] := List.getElem?_eq_getElem hlt
  refine ⟨_, hv, ?_, List.getElem_mem hlt⟩
  have := hA.ids _ _ hv
  omega

/-- In every reachable state, what a worker has recorded is a sublist of what it
has processed successfully, and what it has processed is a sublist of what it has
received. -/
theorem local_sublists {s : State} (hA : InvA cfg s) (hL : InvL proc s) (k : Nat) :
    (byWorker k s.storeLog).Sublist (okTasks (byWorker k s.procLog)) ∧
    ((byWorker k s.procLog).map Prod.fst).Sublist (byWorker k s.recvLog) := by
  by_cases hk : 1 ≤ k ∧ k ≤ s.workers.length
  · obtain ⟨v, hv, hid, _⟩ := worker_of_id hA hk
    have hloc := hL.loc _ _ hv
    rw [hid] at hloc
    cases hpc : v.pc <;> rw [hpc] at hloc <;> simp only [LocalLog] at hloc <;>
      obtain ⟨h1, h2⟩ := hloc
    all_goals first
      | exact ⟨h2 ▸ List.Sublist.refl _, h1 ▸ List.Sublist.refl _⟩
      | exact ⟨h2 ▸ List.Sublist.refl _, h1 ▸ List.sublist_append_left _ _⟩
      | exact ⟨h2 ▸ List.sublist_append_left _ _, h1 ▸ List.Sublist.refl _⟩
  · obtain ⟨h1, h2, h3⟩ := byWorker_unspawned hL hk
    rw [h1, h2, h3]
    exact ⟨List.Sublist.refl _, List.Sublist.refl _⟩

/-- Once a goroutine has returned, it has processed everything it received and
recorded everything it processed successfully. -/
theorem local_finished {s : State} (hA : InvA cfg s) (hL : InvL proc s)
    (hall : ∀ v ∈ s.workers, v.pc = .finished) (k : Nat) :
    byWorker k s.storeLog = okTasks (byWorker k s.procLog) ∧
    (byWorker k s.procLog).map Prod.fst = byWorker k s.recvLog := by
  by_cases hk : 1 ≤ k ∧ k ≤ s.workers.length
  · obtain ⟨v, hv, hid, hmem⟩ := worker_of_id hA hk
    have hloc := hL.loc _ _ hv
    rw [hid, hall v hmem] at hloc
    simp only [LocalLog] at hloc
    exact ⟨hloc.2, hloc.1⟩
  · obtain ⟨h1, h2, h3⟩ := byWorker_unspawned hL hk
    rw [h1, h2, h3]
    exact ⟨rfl, rfl⟩

theorem procPairs_perm_recvLog {s : State} (hA : InvA cfg s) (hL : InvL proc s)
    (hall : ∀ v ∈ s.workers, v.pc = .finished) : (procPairs s.procLog).Perm s.recvLog :=
  perm_of_byWorker (fun k => by rw [byWorker_procPairs]; exact (local_finished hA hL hall k).2)

theorem storeLog_perm_okPairs {s : State} (hA : InvA cfg s) (hL : InvL proc s)
    (hall : ∀ v ∈ s.workers, v.pc = .finished) : s.storeLog.Perm (okPairs s.procLog) :=
  perm_of_byWorker (fun k => by rw [byWorker_okPairs]; exact (local_finished hA hL hall k).1)

/-- With at least one worker, the queue is empty once all workers have returned,
so the receive log lists the tasks `1..N` in order. -/
theorem recvLog_of_allDone {s : State} (hQ : InvQ cfg s) (hW : 1 ≤ cfg.numWorkers)
    (hd : AllDone cfg s) :
    s.taskChan = [] ∧ s.recvLog.map Prod.snd = List.range' 1 cfg.nTasks := by
  obtain ⟨hlen, hall⟩ := hd
  have hlt : 0 < s.workers.length := by omega
  have hq : s.taskChan = [] := by
    refine hQ.drained _ (List.getElem_mem hlt) ?_
    rw [hall _ (List.getElem_mem hlt)]; rfl
  refine ⟨hq, ?_⟩
  have := hQ.fifo
  rw [hq] at this
  simpa using this

/-! ## Bounded results -/

/-- What has been recorded is, as a multiset, part of what has been received. -/
theorem storeLog_subperm_recvLog {s : State} (hA : InvA cfg s) (hL : InvL proc s) :
    s.storeLog.Subperm s.recvLog := by
  rw [List.subperm_ext_iff]
  rintro ⟨k, x⟩ _
  rw [count_pair_eq, count_pair_eq]
  obtain ⟨h1, h2⟩ := local_sublists hA hL k
  exact ((h1.trans (okTasks_sublist _)).trans h2).count_le x

theorem recvLog_length_le {s : State} (hQ : InvQ cfg s) : s.recvLog.length ≤ cfg.nTasks := by
  have := congrArg List.length hQ.fifo
  simp at this
  omega

theorem results_length_le {s : State} (hA : InvA cfg s) (hQ : InvQ cfg s) (hR : InvR s)
    (hL : InvL proc s) : s.results.length ≤ cfg.nTasks := by
  rw [hR.res, List.length_map]
  exact (storeLog_subperm_recvLog hA hL).length_le.trans (recvLog_length_le hQ)

/-! ## Termination -/

theorem rankSum_setPc {ws : List Worker} {j : Nat} {w : Worker} (pc : WPc)
    (hw : ws[j]? = some w) : rankSum (setPc ws j w pc) + w.pc.rank = rankSum ws + pc.rank := by
  unfold setPc rankSum
  exact sum_map_set (fun w => w.pc.rank) ws j w _ hw

theorem stepsLeft_worker {s s2 : State} {j : Nat} {w : Worker} (hw : s.workers[j]? = some w)
    (pc : WPc) (hP : s.panicked = false) (e1 : s2.workers = setPc s.workers j w pc)
    (e2 : s2.main = s.main) (e3 : s2.panicked = false)
    (h : pc.rank + 9 * s2.taskChan.length < w.pc.rank + 9 * s.taskChan.length) :
    stepsLeft cfg s2 < stepsLeft cfg s := by
  have := rankSum_setPc pc hw
  simp only [stepsLeft, e1, e2, e3, hP]
  omega

theorem stepsLeft_step {s s1 : State} (hA : InvA cfg s) (hQ : InvQ cfg s) (hR : InvR s)
    (hL : InvL proc s) (hs : Step cfg proc s s1) : stepsLeft cfg s1 < stepsLeft cfg s := by
  have hP := hA.noPanic
  have hsp := hA.spawn
  have hlen := results_length_le hA hQ hR hL
  cases hs
  case add i hm hi => simp only [stepsLeft, hP, hm, MPc.rank]; simp; omega
  case addExit i hm hi => simp only [stepsLeft, hP, hm, MPc.rank]; simp; omega
  case go i hm =>
    rw [hm] at hsp
    simp only [spawnOk] at hsp
    simp only [stepsLeft, hP, hm, MPc.rank, rankSum, List.map_append, List.sum_append]
    simp [WPc.rank]; omega
  case wait hm hwg => simp only [stepsLeft, hP, hm, MPc.rank]; simp
  case header hm => simp only [stepsLeft, hP, hm, MPc.rank]; simp
  case range hm => simp only [stepsLeft, hP, hm, MPc.rank]; simp; omega
  case printNil hm => simp only [stepsLeft, hP, hm, MPc.rank]; simp
  case printCons r rest hm => simp only [stepsLeft, hP, hm, MPc.rank]; simp
  case unlockPanic j w hw hpc hmu => simp only [stepsLeft, hP]; simp
  case donePanic j w hw hpc hwg => simp only [stepsLeft, hP]; simp
  case recv j w hw hpc t q hq =>
    exact stepsLeft_worker hw _ hP rfl rfl hP (by rw [hpc, hq]; simp [WPc.rank]; omega)
  case recvEnd j w hw hpc hq hc =>
    exact stepsLeft_worker hw _ hP rfl rfl hP (by rw [hpc]; simp [WPc.rank])
  case procOk j w hw t hpc rName rDelay hr he =>
    exact stepsLeft_worker hw _ hP rfl rfl hP (by rw [hpc]; simp [WPc.rank])
  case procErr j w hw t hpc rName rDelay hr e he =>
    exact stepsLeft_worker hw _ hP rfl rfl hP (by rw [hpc]; simp [WPc.rank])
  case failed j w hw t e hpc =>
    exact stepsLeft_worker hw _ hP rfl rfl hP (by rw [hpc]; simp [WPc.rank])
  case lock j w hw t hpc hmu =>
    exact stepsLeft_worker hw _ hP rfl rfl hP (by rw [hpc]; simp [WPc.rank])
  case load j w hw t hpc =>
    exact stepsLeft_worker hw _ hP rfl rfl hP (by rw [hpc]; simp [WPc.rank])
  case store j w hw t old hpc =>
    exact stepsLeft_worker hw _ hP rfl rfl hP (by rw [hpc]; simp [WPc.rank])
  case unlock j w hw hpc k hmu =>
    exact stepsLeft_worker hw _ hP rfl rfl hP (by rw [hpc]; simp [WPc.rank])
  case exit j w hw hpc =>
    exact stepsLeft_worker hw _ hP rfl rfl hP (by rw [hpc]; simp [WPc.rank])
  case done j w hw hpc hwg =>
    exact stepsLeft_worker hw _ hP rfl rfl hP (by rw [hpc]; simp [WPc.rank])

/-- All invariants of a reachable state. -/
theorem invs_of_reachable {s : State} (h : Reachable cfg proc s) :
    InvA cfg s ∧ InvQ cfg s ∧ InvR s ∧ InvL proc s :=
  ⟨invA_of_reachable h, invQ_of_reachable h, invR_of_reachable h, invL_of_reachable h⟩

/-- A schedule that runs from a reachable state uses up the measure. -/
theorem run_length_le {s : State} (hr : Reachable cfg proc s) :
    ∀ (as : List Action) (s1 : State), run cfg proc s as = some s1 →
      stepsLeft cfg s1 + as.length ≤ stepsLeft cfg s := by
  intro as
  induction as generalizing s with
  | nil => intro s1 h; simp only [run, Option.some.injEq] at h; subst h; simp
  | cons a as ih =>
    intro s1 h
    simp only [run] at h
    cases hs : step cfg proc s a with
    | none => simp [hs] at h
    | some s2 =>
      simp only [hs] at h
      obtain ⟨hA, hQ, hR, hL⟩ := invs_of_reachable hr
      have h1 := stepsLeft_step hA hQ hR hL (step_sound hs).2
      have h2 := ih (hr.next hs) s1 h
      simp only [List.length_cons]
      omega

theorem stepsLeft_start :
    stepsLeft cfg (startState cfg) = 10 * cfg.nTasks + 5 * cfg.numWorkers + 6 := by
  simp [stepsLeft, startState, stateAfterClose, MPc.rank, rankSum, tasksUpTo]
  omega

/-! ## Progress -/

/-- A spawned goroutine that has not returned can move, unless it waits for the mutex. -/
theorem worker_enabled {s : State} (hP : s.panicked = false) (hC : s.closed = true) {j : Nat}
    {v : Worker} (hv : s.workers[j]? = some v) (hnf : v.pc ≠ .finished)
    (hlock : (∃ t, v.pc = .lock t) → s.mu = none) :
    (step cfg proc s (.worker j 0 0)).isSome = true := by
  simp only [step, hP, Bool.false_eq_true, if_false, hv]
  unfold stepWorker
  cases hpc : v.pc with
  | recv => cases hq : s.taskChan <;> simp [hC]
  | process t => simp
  | failed t e => simp
  | lock t => simp [hlock ⟨t, hpc⟩]
  | load t => simp
  | store t old => simp
  | unlock => cases hmu : s.mu <;> simp
  | exit => simp
  | done => simp only; split <;> simp
  | finished => exact absurd hpc hnf

/-- While some spawned goroutine has not returned, some goroutine can move. -/
theorem some_worker_enabled (proc : Task → Nat → Nat → ProcOut) {s : State} (hA : InvA cfg s)
    {v : Worker} (hv : v ∈ s.workers) (hnf : v.pc ≠ .finished) :
    ∃ j, (step cfg proc s (.worker j 0 0)).isSome = true := by
  obtain ⟨j, hj⟩ := List.mem_iff_getElem?.mp hv
  by_cases hl : (∃ t, v.pc = .lock t) → s.mu = none
  · exact ⟨j, worker_enabled hA.noPanic hA.closed hj hnf hl⟩
  · have hmu : s.mu ≠ none := fun h => hl (fun _ => h)
    obtain ⟨k, hk⟩ := Option.ne_none_iff_exists'.mp hmu
    obtain ⟨u, hu, hid, _⟩ := worker_of_id hA (hA.holder k hk)
    have hcs := (hA.mutex _ u hu).mpr (by rw [hk, hid])
    refine ⟨k - 1, worker_enabled hA.noPanic hA.closed hu ?_ ?_⟩
    · intro h; rw [h] at hcs; simp [WPc.inCS] at hcs
    · rintro ⟨t, h⟩; rw [h] at hcs; simp [WPc.inCS] at hcs

/-- No goroutine that has returned can move. -/
theorem worker_step_none {s : State} (hall : ∀ v ∈ s.workers, v.pc = .finished)
    (j rName rDelay : Nat) : step cfg proc s (.worker j rName rDelay) = none := by
  unfold step
  split
  · rfl
  · simp only
    split
    · rename_i w hw
      have := hall w (List.mem_iff_getElem?.mpr ⟨j, hw⟩)
      simp [stepWorker, this]
    · rfl

/-- In a reachable state where `main` has not returned, some goroutine can move. -/
theorem progress (proc : Task → Nat → Nat → ProcOut) {s : State} (hA : InvA cfg s)
    (hm : s.main ≠ .done) :
    ∃ a, (step cfg proc s a).isSome = true := by
  have hP := hA.noPanic
  by_cases hwait : s.main = .wait ∧ s.wg ≠ 0
  · obtain ⟨hw, hwg⟩ := hwait
    have hlive : liveCount s.workers ≠ 0 := by
      intro h
      apply hwg
      rw [hA.wg, hw, h]; rfl
    have : ∃ v ∈ s.workers, v.pc ≠ .finished := by
      by_contra hcon
      push_neg at hcon
      apply hlive
      unfold liveCount
      apply List.sum_eq_zero
      intro x hx
      obtain ⟨v, hv, rfl⟩ := List.mem_map.mp hx
      rw [hcon v hv]; rfl
    obtain ⟨v, hv, hnf⟩ := this
    obtain ⟨j, hj⟩ := some_worker_enabled proc hA hv hnf
    exact ⟨_, hj⟩
  · refine ⟨.main, ?_⟩
    simp only [step, hP, Bool.false_eq_true, if_false]
    unfold stepMain
    cases hmain : s.main with
    | add i => simp only; split <;> simp
    | go i => simp
    | wait =>
      have : s.wg = 0 := by
        by_contra h; exact hwait ⟨hmain, h⟩
      simp [this]
    | header => simp
    | range => simp
    | print rest => cases rest <;> simp
    | done => exact absurd hmain hm

theorem main_done_stuck {s : State} (hA : InvA cfg s) (hm : s.main = .done) (a : Action) :
    step cfg proc s a = none := by
  cases a with
  | main => simp [step, stepMain, hm]
  | worker j rName rDelay =>
    exact worker_step_none (hA.joined (by rw [hm]; rfl)) j rName rDelay

/-! ## Decimal rendering -/

theorem digitChar_toNat {d : Nat} (h : d < 10) : (Nat.digitChar d).toNat = 48 + d := by
  interval_cases d <;> rfl

theorem digitsVal_toDigitsCore : ∀ (fuel n : Nat) (ds : List Char), n < fuel →
    digitsVal 0 (Nat.toDigitsCore 10 fuel n ds) = digitsVal n ds := by
  intro fuel
  induction fuel with
  | zero => intro n ds h; omega
  | succ fuel ih =>
    intro n ds h
    have hd : (Nat.digitChar (n % 10)).toNat - 48 = n % 10 := by
      rw [digitChar_toNat (Nat.mod_lt n (by omega))]; omega
    simp only [Nat.toDigitsCore]
    split
    · rename_i h0
      simp only [digitsVal, List.foldl_cons, hd]
      congr 1
      omega
    · rename_i h0
      rw [ih (n / 10) _ (by omega)]
      simp only [digitsVal, List.foldl_cons, hd]
      congr 1
      omega

theorem digitsVal_decimal (n : Nat) : digitsVal 0 (decimal n).data = n := by
  simp only [decimal, Nat.repr, Nat.toDigits, List.asString]
  rw [digitsVal_toDigitsCore (n + 1) n [] (by omega)]
  rfl

theorem decimal_injective {n m : Nat} (h : decimal n = decimal m) : n = m := by
  have := congrArg (fun s => digitsVal 0 s.data) h
  simpa [digitsVal_decimal] using this

theorem toDigitsCore_ne_space : ∀ (fuel n : Nat) (ds : List Char),
    (∀ c ∈ ds, c ≠ Char.ofNat 32) →
    ∀ c ∈ Nat.toDigitsCore 10 fuel n ds, c ≠ Char.ofNat 32 := by
  intro fuel
  induction fuel with
  | zero => intro n ds h; simpa [Nat.toDigitsCore] using h
  | succ fuel ih =>
    intro n ds h
    have hd : Nat.digitChar (n % 10) ≠ Char.ofNat 32 := by
      intro e
      have := digitChar_toNat (Nat.mod_lt n (show 0 < 10 by omega))
      rw [e] at this
      have h32 : (Char.ofNat 32).toNat = 32 := rfl
      omega
    have hcons : ∀ c ∈ Nat.digitChar (n % 10) :: ds, c ≠ Char.ofNat 32 := by
      intro c hc
      rcases List.mem_cons.mp hc with rfl | h1
      · exact hd
      · exact h c h1
    simp only [Nat.toDigitsCore]
    split
    · exact hcons
    · exact ih _ _ hcons

theorem decimal_ne_space (n : Nat) : ∀ c ∈ (decimal n).data, c ≠ Char.ofNat 32 := by
  simp only [decimal, Nat.repr, Nat.toDigits, List.asString]
  exact toDigitsCore_ne_space _ _ [] (by simp)

/-- Two lists that agree up to the first occurrence of a separator. -/
theorem append_sep_inj {α : Type} {c : α} : ∀ {a b x y : List α},
    c ∉ a → c ∉ b → a ++ c :: x = b ++ c :: y → a = b ∧ x = y
  | [], [], x, y, _, _, h => by simpa using h
  | [], e :: b, x, y, _, hb, h => by
    simp only [List.nil_append, List.cons_append, List.cons.injEq] at h
    exact absurd h.1 (fun e1 => hb (by simp [e1]))
  | d :: a, [], x, y, ha, _, h => by
    simp only [List.nil_append, List.cons_append, List.cons.injEq] at h
    exact absurd h.1.symm (fun e1 => ha (by simp [e1]))
  | d :: a, e :: b, x, y, ha, hb, h => by
    simp only [List.cons_append, List.cons.injEq] at h
    have ha1 : c ∉ a := fun h1 => ha (List.mem_cons_of_mem _ h1)
    have hb1 : c ∉ b := fun h1 => hb (List.mem_cons_of_mem _ h1)
    obtain ⟨h1, h2⟩ := append_sep_inj ha1 hb1 h.2
    exact ⟨by rw [h.1, h1], h2⟩

theorem resultLine_data (w t : Nat) :
    (resultLine w t).data
      = "Worker-".data ++
          ((decimal w).data ++ Char.ofNat 32 :: ("processed Task ".data ++ (decimal t).data)) := by
  simp [resultLine, workerName, String.data_append]

/-- The record determines the worker id and the task id. -/
theorem resultLine_injective {w t w1 t1 : Nat} (h : resultLine w t = resultLine w1 t1) :
    w = w1 ∧ t = t1 := by
  have h1 := congrArg String.data h
  rw [resultLine_data, resultLine_data] at h1
  have h2 := List.append_cancel_left h1
  obtain ⟨h3, h4⟩ := append_sep_inj (fun h => decimal_ne_space w _ h rfl)
    (fun h => decimal_ne_space w1 _ h rfl) h2
  have h5 := List.append_cancel_left h4
  exact ⟨decimal_injective (String.ext h3), decimal_injective (String.ext h5)⟩

theorem recordOf_injective : Function.Injective recordOf := by
  rintro ⟨a, b⟩ ⟨c, d⟩ h
  obtain ⟨h1, h2⟩ := resultLine_injective h
  simp only at h1 h2
  rw [h1, h2]

/-! ## Lines printed by the workers -/

theorem workerLine_ne_header {l : String} (h : WorkerLine Task.process l) : l ≠ header := by
  have key : ∀ x : String, "Worker-" ++ x ≠ header := by
    intro x e
    have := congrArg String.data e
    simp [String.data_append, header] at this
  rcases h with ⟨t, r1, r2, _, _, rfl⟩ | ⟨k, e, rfl⟩ | ⟨k, rfl⟩
  · simp only [Task.process, getGoroutineName, String.append_assoc]; exact key _
  · simp only [errorLine, workerName, String.append_assoc]; exact key _
  · simp only [finishedLine, workerName, String.append_assoc]; exact key _

/-! ## Standard output -/

theorem outOk_start : OutOk proc (startState cfg) :=
  ⟨[], by simp, by simp [startState, stateAfterClose]⟩

/-- A step of a worker: `main` has not passed `wg.Wait()`, and the worker
prints the lines `extra`. -/
theorem outOk_worker {s s2 : State} (hA : InvA cfg s) (hI : OutOk proc s) {j : Nat}
    {w : Worker} (hw : s.workers[j]? = some w) (hnf : w.pc ≠ .finished)
    (e1 : s2.main = s.main) (extra : List String) (e2 : s2.out = s.out ++ extra)
    (hx : ∀ l ∈ extra, WorkerLine proc l) : OutOk proc s2 := by
  have hnp : s.main.pastWait ≠ true := by
    intro h
    exact hnf (hA.joined h w (List.mem_iff_getElem?.mpr ⟨j, hw⟩))
  obtain ⟨pre, hpre, hout⟩ := hI
  refine ⟨pre ++ extra, ?_, ?_⟩
  · intro l hl
    rcases List.mem_append.mp hl with h | h
    · exact hpre l h
    · exact hx l h
  · rw [e1, e2]
    cases hm : s.main <;> rw [hm] at hout hnp <;> simp only [MPc.pastWait] at hnp <;>
      first
      | exact absurd rfl hnp
      | (simp only at hout ⊢; rw [hout])

theorem outOk_step {s s1 : State} (hA : InvA cfg s) (hI : OutOk proc s)
    (hs : Step cfg proc s s1) : OutOk proc s1 := by
  cases hs
  case add i hm hi =>
    obtain ⟨pre, hpre, hout⟩ := hI
    rw [hm] at hout
    exact ⟨pre, hpre, hout⟩
  case addExit i hm hi =>
    obtain ⟨pre, hpre, hout⟩ := hI
    rw [hm] at hout
    exact ⟨pre, hpre, hout⟩
  case go i hm =>
    obtain ⟨pre, hpre, hout⟩ := hI
    rw [hm] at hout
    exact ⟨pre, hpre, hout⟩
  case wait hm hwg =>
    obtain ⟨pre, hpre, hout⟩ := hI
    rw [hm] at hout
    exact ⟨pre, hpre, hout⟩
  case header hm =>
    obtain ⟨pre, hpre, hout⟩ := hI
    rw [hm] at hout
    simp only at hout
    exact ⟨pre, hpre, by simp only; rw [hout]⟩
  case range hm =>
    obtain ⟨pre, hpre, hout⟩ := hI
    rw [hm] at hout
    simp only at hout
    exact ⟨pre, hpre, [], by simp only; rw [hout], by simp⟩
  case printNil hm =>
    obtain ⟨pre, hpre, hout⟩ := hI
    rw [hm] at hout
    obtain ⟨printed, h1, h2⟩ := hout
    refine ⟨pre, hpre, ?_⟩
    simp only
    rw [h1, ← h2]; simp
  case printCons r rest hm =>
    obtain ⟨pre, hpre, hout⟩ := hI
    rw [hm] at hout
    obtain ⟨printed, h1, h2⟩ := hout
    refine ⟨pre, hpre, printed ++ [r], ?_, ?_⟩
    · simp only; rw [h1]; simp
    · simp only; rw [← h2]; simp
  case unlockPanic j w hw hpc hmu =>
    obtain ⟨pre, hpre, hout⟩ := hI
    exact ⟨pre, hpre, hout⟩
  case donePanic j w hw hpc hwg =>
    obtain ⟨pre, hpre, hout⟩ := hI
    exact ⟨pre, hpre, hout⟩
  case procOk j w hw t hpc rName rDelay hr he =>
    refine outOk_worker hA hI hw (by rw [hpc]; simp) rfl [(proc t rName rDelay).log] rfl ?_
    intro l hl
    simp only [List.mem_singleton] at hl
    exact Or.inl ⟨t, rName, rDelay, hr.1, hr.2, hl⟩
  case procErr j w hw t hpc rName rDelay hr e he =>
    refine outOk_worker hA hI hw (by rw [hpc]; simp) rfl [(proc t rName rDelay).log] rfl ?_
    intro l hl
    simp only [List.mem_singleton] at hl
    exact Or.inl ⟨t, rName, rDelay, hr.1, hr.2, hl⟩
  case failed j w hw t e hpc =>
    refine outOk_worker hA hI hw (by rw [hpc]; simp) rfl [errorLine w.id e] rfl ?_
    intro l hl
    simp only [List.mem_singleton] at hl
    exact Or.inr (Or.inl ⟨w.id, e, hl⟩)
  case exit j w hw hpc =>
    refine outOk_worker hA hI hw (by rw [hpc]; simp) rfl [finishedLine w.id] rfl ?_
    intro l hl
    simp only [List.mem_singleton] at hl
    exact Or.inr (Or.inr ⟨w.id, hl⟩)
  case recv j w hw hpc t q hq =>
    exact outOk_worker hA hI hw (by rw [hpc]; simp) rfl [] (by simp) (by simp)
  case recvEnd j w hw hpc hq hc =>
    exact outOk_worker hA hI hw (by rw [hpc]; simp) rfl [] (by simp) (by simp)
  case lock j w hw t hpc hmu =>
    exact outOk_worker hA hI hw (by rw [hpc]; simp) rfl [] (by simp) (by simp)
  case load j w hw t hpc =>
    exact outOk_worker hA hI hw (by rw [hpc]; simp) rfl [] (by simp) (by simp)
  case store j w hw t old hpc =>
    exact outOk_worker hA hI hw (by rw [hpc]; simp) rfl [] (by simp) (by simp)
  case unlock j w hw hpc k hmu =>
    exact outOk_worker hA hI hw (by rw [hpc]; simp) rfl [] (by simp) (by simp)
  case done j w hw hpc hwg =>
    exact outOk_worker hA hI hw (by rw [hpc]; simp) rfl [] (by simp) (by simp)

theorem outOk_of_reachable {s : State} (h : Reachable cfg proc s) : OutOk proc s := by
  refine reachable_induction (fun s => OutOk proc s) (fun _ => outOk_start) ?_ s h
  intro s a s1 hr hI hs
  exact outOk_step (invA_of_reachable hr) hI (step_sound hs).2

theorem wrap64_id {x : Int} (h1 : -(2 ^ 63) ≤ x) (h2 : x < 2 ^ 63) : wrap64 x = x := by
  unfold wrap64
  rw [Int.emod_eq_of_lt (by omega) (by omega)]
  omega

theorem sleepDuration_eq {r : Nat} (h : r < 400) :
    sleepDuration r = (300 + (r : Int)) * 1000000 := by
  unfold sleepDuration Millisecond
  rw [@wrap64_id (300 + (r : Int)) (by omega) (by omega), wrap64_id (by omega) (by omega)]
  ring

/-- C8. For every task and every value `r` returned by `rand.Intn(400)`, `process`
sleeps exactly `300 + r` milliseconds: the duration is between 300 and 700
milliseconds, its nanosecond count is computed without `int64` overflow, every
whole number of milliseconds from 300 to 699 occurs for some `r`, and `process`
returns `nil`. -/
theorem process_delay_range (t : Task) (rName r : Nat) (hr : r < 400) :
    (t.process rName r).sleep = (300 + (r : Int)) * Millisecond ∧
    300 * Millisecond ≤ (t.process rName r).sleep ∧
    (t.process rName r).sleep ≤ 700 * Millisecond ∧
    (-(2 ^ 63) ≤ (300 + (r : Int)) * 1000000 ∧ (300 + (r : Int)) * 1000000 < 2 ^ 63) ∧
    (∀ d : Nat, 300 ≤ d → d ≤ 699 →
      ∃ r1, r1 < 400 ∧ (t.process rName r1).sleep = (d : Int) * Millisecond) ∧
    (t.process rName r).err = none := by
  have hs : ∀ r1 : Nat, r1 < 400 →
      (t.process rName r1).sleep = (300 + (r1 : Int)) * Millisecond := by
    intro r1 h1
    simp only [Task.process, sleepDuration_eq h1, Millisecond]
  refine ⟨hs r hr, ?_, ?_, ⟨by omega, by omega⟩, ?_, rfl⟩
  · rw [hs r hr]; simp only [Millisecond]; omega
  · rw [hs r hr]; simp only [Millisecond]; omega
  · intro d h1 h2
    refine ⟨d - 300, by omega, ?_⟩
    have hd : (300 + ((d - 300 : Nat) : Int)) = (d : Int) := by omega
    rw [hs _ (by omega), hd]

theorem process_delay_range_witness :
    (399 : Nat) < 400 ∧
    (Task.process { ID := 7 } 123 399).sleep = 699000000 ∧
    (Task.process { ID := 7 } 123 399).err = none :=
  ⟨by decide,
   by
    have h := (process_delay_range { ID := 7 } 123 399 (by decide)).1
    rw [h]; norm_num [Millisecond],
   (process_delay_range { ID := 7 } 123 399 (by decide)).2.2.2.2.2⟩

theorem refFinal_reached : ReachedBy refConfig Task.process (schedule refCodes) refFinal :=
  ⟨startState refConfig, by rfl, by rfl⟩

theorem refFinal_allDone : AllDone refConfig refFinal := by decide

/-- The receive log lists `1..k` and the queue holds `k+1..N`, for `k` the
number of receives so far. -/
theorem fifo_split {s : State} (hQ : InvQ cfg s) :
    s.recvLog.length ≤ cfg.nTasks ∧
    s.recvLog.map Prod.snd = List.range' 1 s.recvLog.length ∧
    s.taskChan.map Task.ID
      = List.range' (1 + s.recvLog.length) (cfg.nTasks - s.recvLog.length) := by
  have hle := recvLog_length_le hQ
  have hF := hQ.fifo
  have hsplit : List.range' 1 cfg.nTasks
      = List.range' 1 s.recvLog.length
        ++ List.range' (1 + s.recvLog.length) (cfg.nTasks - s.recvLog.length) := by
    rw [List.range'_append_1]
    congr 1
    omega
  rw [hsplit] at hF
  obtain ⟨h1, h2⟩ := List.append_inj hF (by simp)
  exact ⟨hle, h1, h2⟩

theorem queue_eq {s : State} (hQ : InvQ cfg s) :
    s.taskChan
      = (List.range' (1 + s.recvLog.length) (cfg.nTasks - s.recvLog.length)).map Task.mk := by
  rw [← (fifo_split hQ).2.2, List.map_map]
  simp [Function.comp_def]

theorem step_recv_some {s : State} (hP : s.panicked = false) {j : Nat} {w : Worker}
    (hw : s.workers[j]? = some w) (hpc : w.pc = .recv) {t : Task} {q : List Task}
    (hq : s.taskChan = t :: q) (r1 r2 : Nat) :
    step cfg proc s (.worker j r1 r2)
      = some { s with taskChan := q, recvLog := s.recvLog ++ [(w.id, t.ID)],
                      workers := setPc s.workers j w (.process t) } := by
  simp [step, hP, hw, stepWorker, hpc, hq]

theorem step_recv_empty {s : State} (hP : s.panicked = false) (hC : s.closed = true) {j : Nat}
    {w : Worker} (hw : s.workers[j]? = some w) (hpc : w.pc = .recv) (hq : s.taskChan = [])
    (r1 r2 : Nat) :
    step cfg proc s (.worker j r1 r2) = some { s with workers := setPc s.workers j w .exit } := by
  simp [step, hP, hw, stepWorker, hpc, hq, hC]

/-- C1. Exactly-once delivery: in every interleaving of the 4 workers over the
closed queue filled with the tasks 1..20, once all workers have finished the task
ids received (the receive log, in receive order) are exactly 1, 2, ..., 20, each id
once, every receive was made by one of the workers 1..4, every received task was
passed to `process` by the worker that received it, and the queue is empty. -/
theorem exactly_once_delivery (s : State) (hr : Reachable refConfig Task.process s)
    (hd : AllDone refConfig s) :
    s.recvLog.map Prod.snd = List.range' 1 20 ∧
    (∀ t, (s.recvLog.map Prod.snd).count t = if 1 ≤ t ∧ t ≤ 20 then 1 else 0) ∧
    (∀ p ∈ s.recvLog, 1 ≤ p.1 ∧ p.1 ≤ 4) ∧
    (procPairs s.procLog).Perm s.recvLog ∧
    (s.procLog.map (fun p => p.2.1)).Perm (List.range' 1 20) ∧
    s.taskChan = [] := by
  obtain ⟨hA, hQ, hR, hL⟩ := invs_of_reachable hr
  obtain ⟨hq, hrecv⟩ := recvLog_of_allDone hQ (by decide) hd
  change _ = List.range' 1 20 at hrecv
  have hperm := procPairs_perm_recvLog hA hL hd.2
  refine ⟨hrecv, ?_, ?_, hperm, ?_, hq⟩
  · intro t
    rw [hrecv, List.count_eq_of_nodup (List.nodup_range' 1 20)]
    simp only [List.mem_range'_1]
    by_cases h : 1 ≤ t ∧ t ≤ 20
    · rw [if_pos h, if_pos (by omega)]
    · rw [if_neg h, if_neg (by omega)]
  · intro p hp
    have := hL.recvIds p hp
    rw [hd.1] at this
    exact this
  · have := hperm.map Prod.snd
    rw [hrecv] at this
    simpa [procPairs, Function.comp_def] using this

theorem exactly_once_delivery_witness :
    Reachable refConfig Task.process refFinal ∧ AllDone refConfig refFinal ∧
    refFinal.recvLog.map Prod.snd
      = [1, 2, 3, 4, 5, 6, 7, 8, 9, 10, 11, 12, 13, 14, 15, 16, 17, 18, 19, 20] :=
  ⟨⟨_, refFinal_reached⟩, refFinal_allDone,
   (exactly_once_delivery refFinal ⟨_, refFinal_reached⟩ refFinal_allDone).1⟩

/-- C7. Insertion-order delivery: the fill loop of `main` completes with no send
blocked and leaves the tasks 1, 2, ..., 20 in the channel in that order (20
elements, the capacity); in every reachable state, with `k` the number of
receives made so far, `k ≤ 20`, the queue holds the tasks `k+1, ..., 20` in order
and the `i`-th receive overall returned task `i`; a receive on a non-empty queue
returns its head, which is task `k+1`, and a receive on the empty closed queue
returns no task (the worker leaves its loop, the receive log is unchanged). -/
theorem insertion_order_delivery (s : State) (hr : Reachable refConfig Task.process s) :
    fillLoop 20 20 1 (Chan.make 20)
      = some { cap := 20, buf := (List.range' 1 20).map Task.mk, closed := false } ∧
    s.recvLog.length ≤ 20 ∧
    s.taskChan = (List.range' (1 + s.recvLog.length) (20 - s.recvLog.length)).map Task.mk ∧
    (∀ (i : Nat) (p : Nat × Nat), s.recvLog[i]? = some p → p.2 = i + 1) ∧
    (∀ (j r1 r2 : Nat) (w : Worker), s.workers[j]? = some w → w.pc = .recv →
      (∀ t q, s.taskChan = t :: q → t.ID = s.recvLog.length + 1 ∧
        step refConfig Task.process s (.worker j r1 r2)
          = some { s with taskChan := q, recvLog := s.recvLog ++ [(w.id, t.ID)],
                          workers := setPc s.workers j w (.process t) }) ∧
      (s.taskChan = [] →
        step refConfig Task.process s (.worker j r1 r2)
          = some { s with workers := setPc s.workers j w .exit })) := by
  obtain ⟨hA, hQ, hR, hL⟩ := invs_of_reachable hr
  obtain ⟨hle, hrecv, hqueue⟩ := fifo_split hQ
  change s.recvLog.length ≤ 20 at hle
  change _ = List.range' (1 + s.recvLog.length) (20 - s.recvLog.length) at hqueue
  refine ⟨by decide, hle, queue_eq hQ, ?_, ?_⟩
  · intro i p hp
    have h1 : (s.recvLog.map Prod.snd)[i]? = some p.2 := by simp [hp]
    rw [hrecv, List.getElem?_range'] at h1
    · simp only [Option.some.injEq] at h1; omega
    · exact lt_length_of_getElem? hp
  · intro j r1 r2 w hw hpc
    refine ⟨?_, fun hq => step_recv_empty hA.noPanic hA.closed hw hpc hq r1 r2⟩
    intro t q hq
    refine ⟨?_, step_recv_some hA.noPanic hw hpc hq r1 r2⟩
    rw [hq] at hqueue
    have hpos : 20 - s.recvLog.length ≠ 0 := by
      intro h0; rw [h0] at hqueue; simp at hqueue
    obtain ⟨n, hn⟩ := Nat.exists_eq_succ_of_ne_zero hpos
    rw [hn, List.range'_succ] at hqueue
    simp only [List.map_cons, List.cons.injEq] at hqueue
    omega

theorem insertion_order_delivery_witness :
    Reachable refConfig Task.process refFinal ∧ refFinal.recvLog.length = 20 ∧
    refFinal.taskChan = [] :=
  ⟨⟨_, refFinal_reached⟩, by decide,
   by
    have h := (insertion_order_delivery refFinal ⟨_, refFinal_reached⟩).2.2.1
    rw [h]; decide⟩

theorem allDone_of_main_done {s : State} (hA : InvA cfg s) (hm : s.main.pastWait = true) :
    AllDone cfg s := by
  refine ⟨?_, hA.joined hm⟩
  have := hA.spawn
  cases h : s.main <;> rw [h] at hm this <;> simp only [MPc.pastWait, spawnOk] at hm this <;>
    first
    | exact this
    | cases hm

/-- Every schedule that runs from the state after `close` is shorter than the
initial value of the measure. -/
theorem schedule_length_le {as : List Action} {s : State} (hr : ReachedBy cfg proc as s) :
    as.length + stepsLeft cfg s ≤ 10 * cfg.nTasks + 5 * cfg.numWorkers + 6 := by
  obtain ⟨s0, h0, hrun⟩ := hr
  obtain ⟨hcap, rfl⟩ := initState_some h0
  have := run_length_le (reachable_start proc hcap) as s hrun
  rw [stepsLeft_start] at this
  omega

theorem stuck_iff_main_done {s : State} (hA : InvA cfg s) :
    (∀ a, step cfg proc s a = none) ↔ s.main = .done := by
  constructor
  · intro h
    by_contra hm
    obtain ⟨a, ha⟩ := progress proc hA hm
    rw [h a] at ha
    cases ha
  · intro hm a
    exact main_done_stuck hA hm a

theorem workers_stuck_iff {s : State} (hA : InvA cfg s) (hQ : InvQ cfg s)
    (hW : 1 ≤ cfg.numWorkers) (hlen : s.workers.length = cfg.numWorkers) :
    (∀ j r1 r2, step cfg proc s (.worker j r1 r2) = none) ↔
      (s.taskChan = [] ∧ ∀ v ∈ s.workers, v.pc = .finished) := by
  constructor
  · intro h
    have hall : ∀ v ∈ s.workers, v.pc = .finished := by
      intro v hv
      by_contra hnf
      obtain ⟨j, hj⟩ := some_worker_enabled proc hA hv hnf
      rw [h j 0 0] at hj
      cases hj
    exact ⟨(recvLog_of_allDone hQ hW ⟨hlen, hall⟩).1, hall⟩
  · rintro ⟨_, hall⟩ j r1 r2
    exact worker_step_none hall j r1 r2

/-- C3. Termination without deadlock: from the state of `main` after
`close(taskChan)` (queue closed and holding 20 tasks), every execution is finite,
no schedule has more than 226 steps; the program has no enabled step exactly when
`main` has returned, and then the queue is empty and all 4 workers have finished;
once the 4 workers are spawned, no worker has an enabled step exactly when the
queue is empty and all 4 have finished; and a running worker that faces the
closed, empty queue has an enabled step, which leaves the loop. -/
theorem termination_without_deadlock (as : List Action) (s : State)
    (hr : ReachedBy refConfig Task.process as s) :
    as.length + stepsLeft refConfig s ≤ 226 ∧
    ((∀ a, step refConfig Task.process s a = none) ↔ s.main = .done) ∧
    ((∀ a, step refConfig Task.process s a = none) →
      s.taskChan = [] ∧ AllDone refConfig s) ∧
    (s.workers.length = 4 →
      ((∀ j r1 r2, step refConfig Task.process s (.worker j r1 r2) = none) ↔
        (s.taskChan = [] ∧ ∀ v ∈ s.workers, v.pc = .finished))) ∧
    (∀ (j r1 r2 : Nat) (w : Worker), s.workers[j]? = some w → w.pc = .recv →
      s.taskChan = [] →
      s.closed = true ∧
      step refConfig Task.process s (.worker j r1 r2)
        = some { s with workers := setPc s.workers j w .exit }) := by
  obtain ⟨hA, hQ, hR, hL⟩ := invs_of_reachable ⟨as, hr⟩
  refine ⟨schedule_length_le hr, stuck_iff_main_done hA, ?_, ?_, ?_⟩
  · intro h
    have hm := (stuck_iff_main_done hA).mp h
    have hd := allDone_of_main_done hA (by rw [hm]; rfl)
    exact ⟨(recvLog_of_allDone hQ (by decide) hd).1, hd⟩
  · intro hlen
    exact workers_stuck_iff hA hQ (by decide) hlen
  · intro j r1 r2 w hw hpc hq
    exact ⟨hA.closed, step_recv_empty hA.noPanic hA.closed hw hpc hq r1 r2⟩

theorem termination_without_deadlock_witness :
    ReachedBy refConfig Task.process (schedule refCodes) refFinal ∧
    (schedule refCodes).length = 165 ∧ refFinal.main = .done ∧
    ∀ a, step refConfig Task.process refFinal a = none :=
  ⟨refFinal_reached, by rfl, by decide,
   (termination_without_deadlock _ refFinal refFinal_reached).2.1.mpr (by decide)⟩

/-! ## The join barrier -/

theorem doneLog_nodup {s : State} (hA : InvA cfg s) (hL : InvL proc s) : s.doneLog.Nodup := by
  rw [List.nodup_iff_count_le_one]
  intro k
  by_cases hk : 1 ≤ k ∧ k ≤ s.workers.length
  · obtain ⟨v, hv, hid, _⟩ := worker_of_id hA hk
    have := hL.doneOnce _ v hv
    rw [hid] at this
    rw [this]
    split <;> omega
  · rw [List.count_eq_zero_of_not_mem (fun h => hk (hL.doneIds k h))]
    omega

theorem doneLog_perm {s : State} (hA : InvA cfg s) (hL : InvL proc s) (hd : AllDone cfg s) :
    s.doneLog.Perm (List.range' 1 cfg.numWorkers) := by
  rw [List.perm_iff_count]
  intro k
  rw [List.count_eq_of_nodup (List.nodup_range' 1 cfg.numWorkers)]
  simp only [List.mem_range'_1]
  by_cases hk : 1 ≤ k ∧ k ≤ s.workers.length
  · obtain ⟨v, hv, hid, hmem⟩ := worker_of_id hA hk
    have := hL.doneOnce _ v hv
    rw [hid, hd.2 v hmem] at this
    rw [this, if_pos rfl, if_pos (by rw [← hd.1]; omega)]
  · rw [List.count_eq_zero_of_not_mem (fun h => hk (hL.doneIds k h)),
      if_neg (by rw [← hd.1]; omega)]

theorem stepMain_results {s s1 : State} (h : stepMain cfg s = some s1) :
    s1.results = s.results := by
  unfold stepMain at h
  split at h
  · split at h <;> cases h <;> rfl
  · cases h; rfl
  · split at h
    · cases h; rfl
    · cases h
  · cases h; rfl
  · cases h; rfl
  · cases h; rfl
  · cases h; rfl
  · cases h

/-- After `wg.Wait()` has returned, no step changes `results`. -/
theorem results_frozen {s s1 : State} (hA : InvA cfg s) (hm : s.main.pastWait = true)
    {a : Action} (h : step cfg proc s a = some s1) : s1.results = s.results := by
  cases a with
  | main =>
    simp only [step, hA.noPanic, Bool.false_eq_true, if_false] at h
    exact stepMain_results h
  | worker j r1 r2 =>
    rw [worker_step_none (hA.joined hm) j r1 r2] at h
    cases h

/-- C4, as stated, fails: after the first `wg.Add(1)` and before the first `go`
statement the counter is 1 while no worker has been spawned. -/
theorem wg_counter_gap_counterexample :
    ReachedBy refConfig Task.process [Action.main] gapState ∧
    gapState.wg = 1 ∧ gapState.workers = [] ∧ liveCount gapState.workers = 0 ∧
    ¬ (∀ s, Reachable refConfig Task.process s → s.wg = (liveCount s.workers : Int)) := by
  have h : ReachedBy refConfig Task.process [Action.main] gapState :=
    ⟨startState refConfig, by rfl, by rfl⟩
  refine ⟨h, rfl, rfl, rfl, ?_⟩
  intro hall
  have := hall gapState ⟨_, h⟩
  revert this
  decide

/-- C4, amended. Join barrier: the `WaitGroup` counter equals the number of
spawned workers that have not yet finished, plus one while `main` stands between
`wg.Add(1)` and the following `go` statement; no worker signals completion twice,
the counter never goes negative, and once the 4 workers have finished exactly the
4 signals of workers 1, 2, 3, 4 have been issued; when `main` has passed
`wg.Wait()`, all 4 workers have been spawned and have finished, no worker can
take a step, and no later step changes `results`. -/
theorem join_barrier (s : State) (hr : Reachable refConfig Task.process s) :
    s.wg = (liveCount s.workers : Int) + (s.main.gap : Int) ∧
    s.panicked = false ∧
    s.doneLog.Nodup ∧
    (AllDone refConfig s → s.doneLog.Perm [1, 2, 3, 4]) ∧
    (s.main.pastWait = true →
      AllDone refConfig s ∧ s.wg = 0 ∧
      (∀ j r1 r2, step refConfig Task.process s (.worker j r1 r2) = none) ∧
      (∀ a s1, step refConfig Task.process s a = some s1 → s1.results = s.results)) := by
  obtain ⟨hA, hQ, hR, hL⟩ := invs_of_reachable hr
  refine ⟨hA.wg, hA.noPanic, doneLog_nodup hA hL, fun hd => doneLog_perm hA hL hd, ?_⟩
  intro hm
  have hd := allDone_of_main_done hA hm
  refine ⟨hd, ?_, worker_step_none hd.2, fun a s1 h => results_frozen hA hm h⟩
  have hlive : liveCount s.workers = 0 := by
    unfold liveCount
    apply List.sum_eq_zero
    intro x hx
    obtain ⟨v, hv, rfl⟩ := List.mem_map.mp hx
    rw [hd.2 v hv]; rfl
  have hgap : s.main.gap = 0 := by
    cases h : s.main <;> rw [h] at hm <;> simp [MPc.pastWait, MPc.gap] at hm ⊢
  rw [hA.wg, hlive, hgap]; rfl

theorem join_barrier_witness :
    Reachable refConfig Task.process refFinal ∧ refFinal.main.pastWait = true ∧
    refFinal.doneLog = [1, 2, 3, 4] ∧ AllDone refConfig refFinal ∧ refFinal.wg = 0 :=
  ⟨⟨_, refFinal_reached⟩, by decide, by decide,
   ((join_barrier refFinal ⟨_, refFinal_reached⟩).2.2.2.2 (by decide)).1,
   ((join_barrier refFinal ⟨_, refFinal_reached⟩).2.2.2.2 (by decide)).2.1⟩

/-! ## Results at the end of a run -/

theorem okPairs_eq_procPairs {l : List (Nat × Nat × Bool)} (h : ∀ p ∈ l, p.2.2 = true) :
    okPairs l = procPairs l := by
  unfold okPairs procPairs
  rw [List.filter_eq_self.mpr h]

theorem okPairs_length (l : List (Nat × Nat × Bool)) :
    (okPairs l).length = (l.filter (fun p => p.2.2)).length := by
  simp [okPairs]

/-- Once all workers have returned, `results` has one record per task that was
processed successfully. -/
theorem results_of_allDone {s : State} (hA : InvA cfg s) (hR : InvR s) (hL : InvL proc s)
    (hd : AllDone cfg s) :
    s.results = s.storeLog.map recordOf ∧ s.storeLog.Perm (okPairs s.procLog) ∧
    s.results.length = (s.procLog.filter (fun p => p.2.2)).length := by
  have hperm := storeLog_perm_okPairs hA hL hd.2
  refine ⟨hR.res, hperm, ?_⟩
  rw [hR.res, List.length_map, hperm.length_eq, okPairs_length]

theorem results_length_of_allDone {s : State} (hr : Reachable cfg Task.process s)
    (hW : 1 ≤ cfg.numWorkers) (hd : AllDone cfg s) : s.results.length = cfg.nTasks := by
  obtain ⟨hA, hQ, hR, hL⟩ := invs_of_reachable hr
  have hok : ∀ p ∈ s.procLog, p.2.2 = true := by
    intro p hp
    obtain ⟨r1, r2, _, _, h⟩ := hL.src p hp
    rw [h]; rfl
  have h1 := (results_of_allDone hA hR hL hd).2.1
  rw [okPairs_eq_procPairs hok] at h1
  have h2 := h1.trans (procPairs_perm_recvLog hA hL hd.2)
  have h3 := congrArg List.length (recvLog_of_allDone hQ hW hd).2
  rw [hR.res, List.length_map, h2.length_eq]
  simpa using h3

/-- C2. Result count: for every task count N and every worker count W ≥ 1,
`process` never returns an error, and in every interleaving the results slice
holds exactly N entries when all workers have finished; when `main` has returned,
the output is the lines printed by the workers (none of which is the header),
then the header "Final Results:", then exactly the N entries of the results
slice; with N = 0 the header is the last thing printed. -/
theorem result_count (cfg : Config) (hW : 1 ≤ cfg.numWorkers) (s : State)
    (hr : Reachable cfg Task.process s) :
    (∀ (t : Task) (r1 r2 : Nat), (t.process r1 r2).err = none) ∧
    (AllDone cfg s → s.results.length = cfg.nTasks) ∧
    (s.main = .done →
      ∃ before, header ∉ before ∧ s.out = before ++ header :: s.results ∧
        s.results.length = cfg.nTasks) ∧
    (s.main = .done → cfg.nTasks = 0 →
      ∃ before, header ∉ before ∧ s.out = before ++ [header]) := by
  have hA := invA_of_reachable hr
  have hfull : s.main = .done →
      ∃ before, header ∉ before ∧ s.out = before ++ header :: s.results ∧
        s.results.length = cfg.nTasks := by
    intro hm
    obtain ⟨before, hb, hout⟩ := outOk_of_reachable hr
    rw [hm] at hout
    refine ⟨before, fun hmem => workerLine_ne_header (hb _ hmem) rfl, hout, ?_⟩
    exact results_length_of_allDone hr hW (allDone_of_main_done hA (by rw [hm]; rfl))
  refine ⟨fun _ _ _ => rfl, fun hd => results_length_of_allDone hr hW hd, hfull, ?_⟩
  intro hm h0
  obtain ⟨before, h1, h2, h3⟩ := hfull hm
  rw [h0] at h3
  rw [List.length_eq_zero.mp h3] at h2
  exact ⟨before, h1, h2⟩

theorem result_count_witness :
    1 ≤ refConfig.numWorkers ∧ Reachable refConfig Task.process refFinal ∧
    AllDone refConfig refFinal ∧ refFinal.results.length = 20 ∧
    1 ≤ emptyConfig.numWorkers ∧ Reachable emptyConfig Task.process emptyFinal ∧
    emptyFinal.main = .done ∧ emptyFinal.results.length = 0 :=
  ⟨by decide, ⟨_, refFinal_reached⟩, refFinal_allDone,
   (result_count refConfig (by decide) refFinal ⟨_, refFinal_reached⟩).2.1 refFinal_allDone,
   by decide, ⟨schedule emptyCodes, startState emptyConfig, by rfl, by rfl⟩, by decide,
   (result_count emptyConfig (by decide) emptyFinal
      ⟨schedule emptyCodes, startState emptyConfig, by rfl, by rfl⟩).2.1 (by decide)⟩

/-! ## Failing tasks -/

theorem step_process_failed {s : State} (hP : s.panicked = false) {j r1 r2 : Nat} {w : Worker}
    {t : Task} {e : String} (hw : s.workers[j]? = some w) (hpc : w.pc = .process t)
    (h1 : r1 < 1000) (h2 : r2 < 400) (he : (proc t r1 r2).err = some e) :
    ∃ s1 s2, step cfg proc s (.worker j r1 r2) = some s1 ∧
      step cfg proc s1 (.worker j r1 r2) = some s2 ∧
      s1.workers[j]? = some { w with pc := .failed t e } ∧
      s2.workers[j]? = some { w with pc := .recv } ∧
      s1.results = s.results ∧ s2.results = s.results ∧ s2.storeLog = s.storeLog := by
  have hw1 := getElem?_setPc_self (WPc.failed t e) hw
  have hw2 := getElem?_setPc_self WPc.recv hw1
  refine ⟨{ s with out := s.out ++ [(proc t r1 r2).log],
                   procLog := s.procLog ++ [(w.id, t.ID, false)],
                   workers := setPc s.workers j w (.failed t e) },
          { s with out := s.out ++ [(proc t r1 r2).log] ++ [errorLine w.id e],
                   procLog := s.procLog ++ [(w.id, t.ID, false)],
                   workers := setPc (setPc s.workers j w (.failed t e)) j
                     { w with pc := .failed t e } .recv },
          ?_, ?_, hw1, hw2, rfl, rfl, rfl⟩
  · simp [step, hP, hw, stepWorker, hpc, h1, h2, he]
  · simp only [step, hP, Bool.false_eq_true, if_false, hw1, stepWorker]

theorem stores_of_outcome {s : State} (hA : InvA cfg s) (hQ : InvQ cfg s) (hL : InvL proc s)
    (hW : 1 ≤ cfg.numWorkers) (hd : AllDone cfg s) (fails : Nat → Bool)
    (hf : ∀ t r1 r2, (proc t r1 r2).err.isSome = fails t.ID) :
    (s.storeLog.map Prod.snd).Perm ((List.range' 1 cfg.nTasks).filter (fun t => !fails t)) := by
  have h1 := (storeLog_perm_okPairs hA hL hd.2).map Prod.snd
  have h2 : (okPairs s.procLog).map Prod.snd
      = (s.procLog.map (fun p => p.2.1)).filter (fun t => !fails t) := by
    unfold okPairs
    rw [List.map_map, List.filter_map]
    have : s.procLog.filter (fun p => p.2.2)
        = s.procLog.filter ((fun t => !fails t) ∘ fun p => p.2.1) := by
      apply List.filter_congr
      intro p hp
      obtain ⟨r1, r2, _, _, h⟩ := hL.src p hp
      have h3 := hf { ID := p.2.1 } r1 r2
      simp only [Function.comp_apply]
      rw [h, ← h3]
      cases (proc { ID := p.2.1 } r1 r2).err <;> rfl
    rw [this]
    rfl
  have h3 : (s.procLog.map (fun p => p.2.1)).Perm (List.range' 1 cfg.nTasks) := by
    have := (procPairs_perm_recvLog hA hL hd.2).map Prod.snd
    rw [(recvLog_of_allDone hQ hW hd).2] at this
    simpa [procPairs, Function.comp_def] using this
  rw [h2] at h1
  exact h1.trans (h3.filter _)

/-- C5. Failure isolation: with `process` replaced by an arbitrary function, a
worker whose task fails appends nothing for it and goes back to receiving; for
every such function and every interleaving the results slice never has more than
20 entries, no schedule has more than 226 steps, the program can take a step
until `main` has returned, at which point all 4 workers have finished; and once
all workers have finished, all 20 tasks have been received and processed and the
results slice has exactly one entry per task whose `process` succeeded. -/
theorem failure_isolation (proc : Task → Nat → Nat → ProcOut) (as : List Action) (s : State)
    (hr : ReachedBy refConfig proc as s) :
    (∀ (j r1 r2 : Nat) (w : Worker) (t : Task) (e : String), s.workers[j]? = some w →
      w.pc = .process t → r1 < 1000 → r2 < 400 → (proc t r1 r2).err = some e →
      ∃ s1 s2, step refConfig proc s (.worker j r1 r2) = some s1 ∧
        step refConfig proc s1 (.worker j r1 r2) = some s2 ∧
        s1.workers[j]? = some { w with pc := .failed t e } ∧
        s2.workers[j]? = some { w with pc := .recv } ∧
        s1.results = s.results ∧ s2.results = s.results ∧ s2.storeLog = s.storeLog) ∧
    s.results.length ≤ 20 ∧
    as.length ≤ 226 ∧
    ((∀ a, step refConfig proc s a = none) ↔ s.main = .done) ∧
    (s.main = .done → AllDone refConfig s) ∧
    (AllDone refConfig s →
      s.recvLog.map Prod.snd = List.range' 1 20 ∧
      (s.procLog.map (fun p => p.2.1)).Perm (List.range' 1 20) ∧
      s.results = s.storeLog.map recordOf ∧
      s.storeLog.Perm (okPairs s.procLog) ∧
      s.results.length = (s.procLog.filter (fun p => p.2.2)).length) ∧
    (∀ fails : Nat → Bool, (∀ t r1 r2, (proc t r1 r2).err.isSome = fails t.ID) →
      AllDone refConfig s →
      (s.storeLog.map Prod.snd).Perm ((List.range' 1 20).filter (fun t => !fails t))) := by
  obtain ⟨hA, hQ, hR, hL⟩ := invs_of_reachable ⟨as, hr⟩
  have hlen := schedule_length_le hr
  refine ⟨?_, results_length_le hA hQ hR hL, ?_, stuck_iff_main_done hA, ?_, ?_, ?_⟩
  · intro j r1 r2 w t e hw hpc h1 h2 he
    exact step_process_failed hA.noPanic hw hpc h1 h2 he
  · change as.length + stepsLeft refConfig s ≤ 226 at hlen
    omega
  · intro hm
    exact allDone_of_main_done hA (by rw [hm]; rfl)
  · intro hd
    obtain ⟨h1, h2, h3⟩ := results_of_allDone hA hR hL hd
    have h4 := (recvLog_of_allDone hQ (by decide) hd).2
    refine ⟨h4, ?_, h1, h2, h3⟩
    have := (procPairs_perm_recvLog hA hL hd.2).map Prod.snd
    rw [h4] at this
    simpa [procPairs, Function.comp_def] using this
  · intro fails hf hd
    exact stores_of_outcome hA hQ hL (by decide) hd fails hf

theorem failure_isolation_witness :
    ReachedBy refConfig flakyProcess (schedule flakyCodes) flakyFinal ∧
    AllDone refConfig flakyFinal ∧
    flakyFinal.recvLog.map Prod.snd = List.range' 1 20 ∧
    flakyFinal.storeLog.map Prod.snd = [1, 3, 5, 7, 9, 11, 13, 15, 17, 19] ∧
    flakyFinal.results.length = 10 :=
  ⟨⟨startState refConfig, by rfl, by rfl⟩, by decide,
   ((failure_isolation flakyProcess (schedule flakyCodes) flakyFinal
      ⟨startState refConfig, by rfl, by rfl⟩).2.2.2.2.2.1 (by decide)).1,
   by decide, by decide⟩

/-! ## Counting appends -/

theorem byWorker_length {α : Type} (k : Nat) (l : List (Nat × α)) :
    (byWorker k l).length = (l.filter (fun p => decide (p.1 = k))).length := by
  simp [byWorker]

/-- A log whose entries all belong to the workers `1..n`, each worker having `M`
entries, has `n * M` entries. -/
theorem length_eq_mul {α : Type} (M : Nat) : ∀ (n : Nat) (l : List (Nat × α)),
    (∀ p ∈ l, 1 ≤ p.1 ∧ p.1 ≤ n) →
    (∀ k, 1 ≤ k → k ≤ n → (byWorker k l).length = M) → l.length = n * M := by
  intro n
  induction n with
  | zero =>
    intro l hid _
    have : l = [] := by
      apply List.eq_nil_iff_forall_not_mem.mpr
      intro p hp
      have := hid p hp
      omega
    simp [this]
  | succ n ih =>
    intro l hid hM
    have hsplit := List.length_eq_countP_add_countP (fun p : Nat × α => decide (p.1 = n + 1)) l
    rw [List.countP_eq_length_filter, List.countP_eq_length_filter] at hsplit
    have h1 : (l.filter (fun p => decide (p.1 = n + 1))).length = M := by
      rw [← byWorker_length]; exact hM (n + 1) (by omega) (by omega)
    have h2 : (l.filter (fun a => decide ¬(decide (a.1 = n + 1) = true))).length = n * M := by
      apply ih
      · intro p hp
        obtain ⟨hp1, hp2⟩ := List.mem_filter.mp hp
        have := hid p hp1
        simp only [decide_eq_true_eq, decide_not, Bool.not_eq_true', decide_eq_false_iff_not] at hp2
        omega
      · intro k hk1 hk2
        rw [← hM k hk1 (by omega), byWorker_length, byWorker_length, List.filter_filter]
        congr 1
        apply List.filter_congr
        intro p _
        by_cases hpk : p.1 = k
        · have : ¬ k = n + 1 := by omega
          simp [hpk, this]
        · simp [hpk]
    rw [hsplit, h1, h2]
    ring

theorem spawned_le {s : State} (hA : InvA cfg s) : s.workers.length ≤ cfg.numWorkers := by
  have := hA.spawn
  cases h : s.main <;> rw [h] at this <;> simp only [spawnOk] at this <;> omega

/-- A step leaves `results` as it is or extends it by one entry at its end. -/
theorem step_results {s s1 : State} (hR : InvR s) (hs : Step cfg proc s s1) :
    s1.results = s.results ∨ ∃ e, s1.results = s.results ++ [e] := by
  cases hs
  case store j w hw t old hpc =>
    right
    exact ⟨resultLine w.id t.ID, by rw [hR.snap j w t old hw hpc]⟩
  all_goals exact Or.inl rfl

theorem step_store {s : State} (hP : s.panicked = false) {j : Nat} {w : Worker} {t : Task}
    {old : List String} (hw : s.workers[j]? = some w) (hpc : w.pc = .store t old)
    (r1 r2 : Nat) :
    step cfg proc s (.worker j r1 r2)
      = some { s with results := old ++ [resultLine w.id t.ID],
                      storeLog := s.storeLog ++ [(w.id, t.ID)],
                      workers := setPc s.workers j w .unlock } := by
  simp [step, hP, hw, stepWorker, hpc]

theorem mutual_exclusion {s : State} (hA : InvA cfg s) {i j : Nat} {v u : Worker}
    (hv : s.workers[i]? = some v) (hu : s.workers[j]? = some u) (h1 : v.pc.inCS = true)
    (h2 : u.pc.inCS = true) : i = j := by
  have e1 := (hA.mutex i v hv).mp h1
  have e2 := (hA.mutex j u hu).mp h2
  rw [e1] at e2
  simp only [Option.some.injEq] at e2
  have := hA.ids i v hv
  have := hA.ids j u hu
  omega

/-- C6. Atomic appends to the result sink: in every interleaving at most one
worker is between `mu.Lock()` and `mu.Unlock()`; the value a worker has read from
`*results` under the lock is still the current one when it writes back, so its
write extends the slice by exactly one entry at the end; no step of the program
shortens the slice or changes an earlier entry; the slice has one entry per write
performed, and `W` workers each having performed `M` writes leave exactly
`W * M` entries. -/
theorem atomic_appends (cfg : Config) (proc : Task → Nat → Nat → ProcOut) (s : State)
    (hr : Reachable cfg proc s) :
    (∀ (i j : Nat) (v u : Worker), s.workers[i]? = some v → s.workers[j]? = some u →
      v.pc.inCS = true → u.pc.inCS = true → i = j) ∧
    (∀ (j r1 r2 : Nat) (w : Worker) (t : Task) (old : List String), s.workers[j]? = some w →
      w.pc = .store t old →
      old = s.results ∧
      ∃ s1, step cfg proc s (.worker j r1 r2) = some s1 ∧
        s1.results = s.results ++ [resultLine w.id t.ID]) ∧
    (∀ a s1, step cfg proc s a = some s1 →
      s1.results = s.results ∨ ∃ e, s1.results = s.results ++ [e]) ∧
    s.results.length = s.storeLog.length ∧
    (∀ M, (∀ k, 1 ≤ k → k ≤ cfg.numWorkers → (byWorker k s.storeLog).length = M) →
      s.results.length = cfg.numWorkers * M) := by
  obtain ⟨hA, hQ, hR, hL⟩ := invs_of_reachable hr
  have hlen : s.results.length = s.storeLog.length := by rw [hR.res, List.length_map]
  refine ⟨fun i j v u hv hu h1 h2 => mutual_exclusion hA hv hu h1 h2, ?_, ?_, hlen, ?_⟩
  · intro j r1 r2 w t old hw hpc
    have hold := hR.snap j w t old hw hpc
    refine ⟨hold, _, step_store hA.noPanic hw hpc r1 r2, ?_⟩
    simp only [hold]
  · intro a s1 h
    exact step_results hR (step_sound h).2
  · intro M hM
    rw [hlen]
    apply length_eq_mul M cfg.numWorkers s.storeLog _ hM
    intro p hp
    have := hL.storeIds p hp
    have := spawned_le hA
    omega

theorem atomic_appends_witness :
    Reachable refConfig Task.process refFinal ∧
    (∀ k, 1 ≤ k → k ≤ refConfig.numWorkers →
      (byWorker k refFinal.storeLog).length = 5) ∧
    refFinal.results.length = 4 * 5 := by
  have hM : ∀ k, 1 ≤ k → k ≤ refConfig.numWorkers →
      (byWorker k refFinal.storeLog).length = 5 := by
    intro k h1 h2
    change k ≤ 4 at h2
    interval_cases k <;> decide
  exact ⟨⟨_, refFinal_reached⟩, hM,
    (atomic_appends refConfig Task.process refFinal ⟨_, refFinal_reached⟩).2.2.2.2 5 hM⟩

/-! ## Content and order of the records -/

theorem recvLog_tasks_nodup {s : State} (hQ : InvQ cfg s) : (s.recvLog.map Prod.snd).Nodup := by
  rw [(fifo_split hQ).2.1]
  exact List.nodup_range' 1 _

theorem recv_task_range {s : State} (hQ : InvQ cfg s) {p : Nat × Nat} (hp : p ∈ s.recvLog) :
    1 ≤ p.2 ∧ p.2 ≤ cfg.nTasks := by
  obtain ⟨hle, hrecv, _⟩ := fifo_split hQ
  have : p.2 ∈ s.recvLog.map Prod.snd := List.mem_map.mpr ⟨p, hp, rfl⟩
  rw [hrecv, List.mem_range'_1] at this
  omega

theorem storeLog_nodup {s : State} (hA : InvA cfg s) (hQ : InvQ cfg s) (hL : InvL proc s) :
    s.storeLog.Nodup := by
  obtain ⟨l, hl1, hl2⟩ := storeLog_subperm_recvLog hA hL
  have h1 : s.recvLog.Nodup := List.Nodup.of_map _ (recvLog_tasks_nodup hQ)
  exact hl1.nodup_iff.mp (h1.sublist hl2)

theorem byWorker_storeLog_sorted {s : State} (hA : InvA cfg s) (hQ : InvQ cfg s)
    (hL : InvL proc s) (k : Nat) : (byWorker k s.storeLog).Pairwise (· < ·) := by
  obtain ⟨h1, h2⟩ := local_sublists hA hL k
  have h3 : (byWorker k s.recvLog).Sublist (s.recvLog.map Prod.snd) :=
    (List.filter_sublist _).map _
  have h4 : (s.recvLog.map Prod.snd).Pairwise (· < ·) := by
    rw [(fifo_split hQ).2.1]
    exact List.pairwise_lt_range' 1 _
  exact h4.sublist (((h1.trans (okTasks_sublist _)).trans h2).trans h3)

/-- C9. Success record content: in every reachable state the results slice holds,
in write order, the record "Worker-w processed Task t" of each write, where `t` is
one of the task ids 1..20 and `w` in 1..4 is the id that `main` passed to the
worker that received `t` from the queue, the only worker that received `t`; the
line that `process` prints carries the value drawn from `rand.Intn(1000)`, a
number below 1000, instead, whatever worker runs it. -/
theorem success_record_content (s : State) (hr : Reachable refConfig Task.process s) :
    s.results = s.storeLog.map (fun p => resultLine p.1 p.2) ∧
    (∀ e ∈ s.results, ∃ w t,
      e = "Worker-" ++ decimal w ++ " processed Task " ++ decimal t ∧
      1 ≤ t ∧ t ≤ 20 ∧ 1 ≤ w ∧ w ≤ 4 ∧
      (∃ v, s.workers[w - 1]? = some v ∧ v.id = w) ∧
      (w, t) ∈ s.recvLog ∧ ∀ w1, (w1, t) ∈ s.recvLog → w1 = w) ∧
    (∀ (t : Task) (r1 r2 : Nat),
      (t.process r1 r2).log
        = "Worker-" ++ decimal r1 ++ " is processing Task " ++ decimal t.ID) ∧
    (∀ (j r1 r2 : Nat) (w : Worker) (t : Task), s.workers[j]? = some w →
      w.pc = .process t →
      (step refConfig Task.process s (.worker j r1 r2)).isSome = true → r1 < 1000) := by
  obtain ⟨hA, hQ, hR, hL⟩ := invs_of_reachable hr
  refine ⟨hR.res, ?_, fun _ _ _ => rfl, ?_⟩
  swap
  · intro j r1 r2 w t hw hpc h
    by_contra hlt
    simp [step, hA.noPanic, hw, stepWorker, hpc, hlt] at h
  intro e he
  rw [hR.res] at he
  obtain ⟨⟨w, t⟩, hp, rfl⟩ := List.mem_map.mp he
  have hrecv : (w, t) ∈ s.recvLog := (storeLog_subperm_recvLog hA hL).subset hp
  have hid := hL.storeIds _ hp
  have htask := recv_task_range hQ hrecv
  have hsp := spawned_le hA
  obtain ⟨v, hv, hvid, _⟩ := worker_of_id hA hid
  refine ⟨w, t, rfl, htask.1, htask.2, hid.1, ?_, ⟨v, hv, hvid⟩, hrecv, ?_⟩
  · exact hid.2.trans hsp
  · intro w1 h1
    have := List.inj_on_of_nodup_map (recvLog_tasks_nodup hQ) h1 hrecv rfl
    exact congrArg Prod.fst this

theorem success_record_content_witness :
    Reachable refConfig Task.process refFinal ∧
    refFinal.results.take 5
      = ["Worker-1 processed Task 1", "Worker-2 processed Task 2", "Worker-3 processed Task 3",
         "Worker-4 processed Task 5", "Worker-1 processed Task 4"] ∧
    refFinal.storeLog.take 5 = [(1, 1), (2, 2), (3, 3), (4, 5), (1, 4)] ∧
    refFinal.results = refFinal.storeLog.map (fun p => resultLine p.1 p.2) ∧
    refFinal.out.take 2 = ["Worker-111 is processing Task 1", "Worker-222 is processing Task 2"] :=
  ⟨⟨_, refFinal_reached⟩, by decide, by decide,
   (success_record_content refFinal ⟨_, refFinal_reached⟩).1, by decide⟩

theorem isRecordOf_recordOf {n k : Nat} {p : Nat × Nat} (hp : 1 ≤ p.2 ∧ p.2 ≤ n) :
    isRecordOf n k (recordOf p) = decide (p.1 = k) := by
  unfold isRecordOf recordOf
  by_cases h : p.1 = k
  · rw [decide_eq_true h, List.any_eq_true]
    exact ⟨p.2, by rw [List.mem_range'_1]; omega, by rw [h]; simp⟩
  · rw [decide_eq_false h, List.any_eq_false]
    intro t _ ht
    simp only [decide_eq_true_eq] at ht
    exact h (resultLine_injective ht).1

theorem results_filter {s : State} (hA : InvA cfg s) (hQ : InvQ cfg s) (hR : InvR s)
    (hL : InvL proc s) (k : Nat) :
    s.results.filter (isRecordOf cfg.nTasks k) = (byWorker k s.storeLog).map (resultLine k) := by
  rw [hR.res, List.filter_map]
  have h1 : s.storeLog.filter (isRecordOf cfg.nTasks k ∘ recordOf)
      = s.storeLog.filter (fun p => decide (p.1 = k)) := by
    apply List.filter_congr
    intro p hp
    exact isRecordOf_recordOf
      (recv_task_range hQ ((storeLog_subperm_recvLog hA hL).subset hp))
  rw [h1]
  unfold byWorker
  rw [List.map_map]
  apply List.map_congr_left
  intro p hp
  have := (List.mem_filter.mp hp).2
  simp only [decide_eq_true_eq] at this
  simp [recordOf, this]

/-- C10. Per-worker order: in every interleaving and at every reachable state, the
records of any one worker `k`, taken from the results slice in slice order, are the
records of a strictly increasing sequence of task ids (the tasks `k` has written,
in write order); and the entries of the results slice are pairwise distinct
strings. -/
theorem per_worker_order (s : State) (hr : Reachable refConfig Task.process s) :
    (∀ k, s.results.filter (isRecordOf 20 k) = (byWorker k s.storeLog).map (resultLine k)) ∧
    (∀ k, (byWorker k s.storeLog).Pairwise (· < ·)) ∧
    s.results = s.storeLog.map (fun p => resultLine p.1 p.2) ∧
    s.results.Nodup := by
  obtain ⟨hA, hQ, hR, hL⟩ := invs_of_reachable hr
  refine ⟨fun k => results_filter hA hQ hR hL k, fun k => byWorker_storeLog_sorted hA hQ hL k,
    hR.res, ?_⟩
  rw [hR.res]
  exact (storeLog_nodup hA hQ hL).map recordOf_injective

theorem per_worker_order_witness :
    Reachable refConfig Task.process refFinal ∧
    refFinal.storeLog.map Prod.snd
      = [1, 2, 3, 5, 4, 6, 7, 8, 9, 10, 11, 12, 13, 14, 15, 16, 17, 18, 19, 20] ∧
    byWorker 1 refFinal.storeLog = [1, 4, 9, 13, 17] ∧
    refFinal.results.filter (isRecordOf 20 1)
      = [1, 4, 9, 13, 17].map (resultLine 1) ∧
    refFinal.results.Nodup := by
  have h := per_worker_order refFinal ⟨_, refFinal_reached⟩
  have h1 : byWorker 1 refFinal.storeLog = [1, 4, 9, 13, 17] := by decide
  refine ⟨⟨_, refFinal_reached⟩, by decide, h1, ?_, h.2.2.2⟩
  rw [h.1 1, h1]

end WorkerPool
